import Mathlib

/-!
Verification of the content-rendering pipeline of the e-commerce blog backend.

The definitions below are a shallow embedding of the JavaScript pipeline:
* `convertMarkdownToHtml` embeds `blogSchema.methods.convertMarkdownToHtml`
  (src/models/Category.js), pass by pass, with each JavaScript
  `String.replace(regex, ...)` call embedded as a dedicated scanner that is
  faithful to that regex's semantics (lazy `.*?` never matching a newline,
  leftmost match first, global non-overlapping continuation, advance by one
  character when a partial match fails).
* `generateProcessedContent` embeds `blogSchema.methods.generateProcessedContent`.
* `postResolve` embeds the content-image resolution loop of `router.post('/')`
  in src/routes/blogs.js.
* `BlogDoc`, `saveBlog`, `getBlogBySlug` embed the mongoose pre-save hook and
  the GET-by-slug read path, with explicit `isModified` flags.

Strings are embedded as `List Char`; all functions are structurally recursive
or use an explicit fuel argument (initialised to the string length by a
wrapper, which always suffices since each step consumes at least one
character), keeping every definition kernel-executable.
-/

set_option maxRecDepth 20000

abbrev Str := List Char

/-- Whitespace test used by `String.prototype.trim` and `split(/\s+/)`
(restricted to the ASCII whitespace characters, which is all the pipeline's
inputs use). -/
def isWsChar (c : Char) : Bool :=
  c == ' ' || c == '\t' || c == '\n' || c == '\r'

/-- Boolean prefix test on character lists (JavaScript `startsWith`). -/
def isPre : Str → Str → Bool
  | [], _ => true
  | _ :: _, [] => false
  | a :: as, b :: bs => a == b && isPre as bs

/-- Boolean substring test (JavaScript `includes`). -/
def containsSub (n : Str) : Str → Bool
  | [] => isPre n []
  | c :: t => isPre n (c :: t) || containsSub n t

/-- Number of positions at which `n` occurs as a substring.  For the needles
used in this development occurrences can never overlap, so this coincides
with the number of (non-overlapping) matches a JavaScript global regex for
the literal `n` finds. -/
def occCount (n : Str) : Str → Nat
  | [] => 0
  | c :: t => (if isPre n (c :: t) then 1 else 0) + occCount n t

/-- Fueled left-to-right global literal replacement, the semantics of
JavaScript `s.replace(new RegExp(escapedLiteral, 'g'), r)`: scan left to
right, on a match emit `r` and continue after the matched text (replacement
text and matched text are never rescanned). -/
def replaceAllAux (n r : Str) : Nat → Str → Str
  | 0, s => s
  | _ + 1, [] => []
  | f + 1, c :: t =>
    if isPre n (c :: t) && !n.isEmpty then
      r ++ replaceAllAux n r f (List.drop (n.length - 1) t)
    else
      c :: replaceAllAux n r f t

def replaceAll (s n r : Str) : Str := replaceAllAux n r s.length s

/-- JavaScript `trim` (left part). -/
def trimL (s : Str) : Str := s.dropWhile isWsChar

/-- JavaScript `trim` (right part). -/
def trimR (s : Str) : Str := (s.reverse.dropWhile isWsChar).reverse

/-- JavaScript `String.prototype.trim`. -/
def trimStr (s : Str) : Str := trimR (trimL s)

/-- JavaScript `s.split('\n')`. -/
def splitNL : Str → List Str
  | [] => [[]]
  | c :: t =>
    if c = '\n' then [] :: splitNL t
    else
      match splitNL t with
      | [] => [[c]]
      | l :: ls => (c :: l) :: ls

/-- JavaScript `lines.join('\n')`. -/
def joinNL : List Str → Str
  | [] => []
  | [l] => l
  | l :: ls => l ++ '\n' :: joinNL ls

/-- Apply a line-local transformation to every line, as a whole-string pass
(`m`-flagged anchored regexes are line-local; none of the replacements used
below introduce a newline, so this is the JavaScript behaviour). -/
def mapLines (f : Str → Str) (s : Str) : Str := joinNL ((splitNL s).map f)

/-- Hexadecimal digit test for the color-tag regex class `[0-9A-Fa-f]`. -/
def hexDigit (c : Char) : Bool :=
  c.isDigit || ('A' ≤ c && c ≤ 'F') || ('a' ≤ c && c ≤ 'f')

def sColorOpen : Str := "\x7bcolor:".toList
def sColorClose : Str := "\x7b/color\x7d".toList
def sSpanPre : Str := "<span style=\"color: ".toList
def sSpanMid : Str := ";\">".toList
def sSpanEnd : Str := "</span>".toList

/-- Parse the capture group `(#[0-9A-Fa-f]\x7b6\x7d|[a-zA-Z]+)` followed by the
literal `\x7d`, returning the captured text and the remainder after the brace.
A leading `#` commits to the six-hex-digit alternative (letters cannot match
`#`), otherwise the greedy letter run must be directly followed by `\x7d`. -/
def colorGroup1 : Str → Option (Str × Str)
  | '#' :: t =>
    let h := t.take 6
    if h.length == 6 && h.all hexDigit && isPre ['\x7d'] (t.drop 6) then
      some ('#' :: h, t.drop 7)
    else none
  | s =>
    let letters := s.takeWhile Char.isAlpha
    if !letters.isEmpty && isPre ['\x7d'] (s.drop letters.length) then
      some (letters, s.drop (letters.length + 1))
    else none

/-- Lazy scan for a closing delimiter `d`: consume characters (failing on a
newline, since `.` does not match `\n`) until `d` is a prefix; return the
consumed text and the remainder after the delimiter.  This is the semantics
of `(.*?)` followed by a literal. -/
def findDelim (d : Str) : Str → Option (Str × Str)
  | [] => none
  | c :: t =>
    if isPre d (c :: t) then some ([], List.drop (d.length - 1) t)
    else if c = '\n' then none
    else
      match findDelim d t with
      | some (inner, after) => some (c :: inner, after)
      | none => none

/-- Lazy scan for a closing delimiter where the consumed text may span
newlines (the semantics of `([\s\S]*?)` followed by a literal). -/
def findDelimML (d : Str) : Str → Option (Str × Str)
  | [] => none
  | c :: t =>
    if isPre d (c :: t) then some ([], List.drop (d.length - 1) t)
    else
      match findDelimML d t with
      | some (inner, after) => some (c :: inner, after)
      | none => none

/-- The color-tag pass:
`replace(/\x7bcolor:(#[0-9A-Fa-f]\x7b6\x7d|[a-zA-Z]+)\x7d(.*?)\x7b\/color\x7d/g, '<span style="color: $1;">$2</span>')`. -/
def colorAux : Nat → Str → Str
  | 0, s => s
  | _ + 1, [] => []
  | f + 1, c :: t =>
    if isPre sColorOpen (c :: t) then
      match colorGroup1 (List.drop (sColorOpen.length - 1) t) with
      | some (g1, rest1) =>
        match findDelim sColorClose rest1 with
        | some (body, after) =>
          sSpanPre ++ g1 ++ sSpanMid ++ body ++ sSpanEnd ++ colorAux f after
        | none => c :: colorAux f t
      | none => c :: colorAux f t
    else c :: colorAux f t

def colorPass (s : Str) : Str := colorAux s.length s

def sH1Open : Str := "<h1 class=\"text-3xl font-bold my-6 text-gray-900\">".toList
def sH2Open : Str := "<h2 class=\"text-2xl font-bold my-5 text-gray-800\">".toList
def sH3Open : Str := "<h3 class=\"text-xl font-bold my-4 text-gray-700\">".toList
def sH4Open : Str := "<h4 class=\"text-lg font-bold my-3 text-gray-600\">".toList

/-- One `m`-flagged anchored header replacement on a single line:
`^<mark> (.*$)` wrapped in the given tags. -/
def headerLine (mark openTag closeTag : Str) (l : Str) : Str :=
  if isPre mark l then openTag ++ List.drop mark.length l ++ closeTag else l

def h1Pass (s : Str) : Str := mapLines (headerLine "# ".toList sH1Open "</h1>".toList) s
def h2Pass (s : Str) : Str := mapLines (headerLine "## ".toList sH2Open "</h2>".toList) s
def h3Pass (s : Str) : Str := mapLines (headerLine "### ".toList sH3Open "</h3>".toList) s
def h4Pass (s : Str) : Str := mapLines (headerLine "#### ".toList sH4Open "</h4>".toList) s

/-- Generic scanner for a symmetric inline construct `d(.*?)d` (bold, italic,
inline code, fenced code): on a complete match emit the tags and continue
after the match, on a failed opening delimiter advance one character.
`ml` selects the multi-line body variant (`[\s\S]*?`). -/
def inlineAux (d openTag closeTag : Str) (ml : Bool) : Nat → Str → Str
  | 0, s => s
  | _ + 1, [] => []
  | f + 1, c :: t =>
    if isPre d (c :: t) then
      match (if ml then findDelimML d (List.drop (d.length - 1) t)
             else findDelim d (List.drop (d.length - 1) t)) with
      | some (inner, after) =>
        openTag ++ inner ++ closeTag ++ inlineAux d openTag closeTag ml f after
      | none => c :: inlineAux d openTag closeTag ml f t
    else c :: inlineAux d openTag closeTag ml f t

def sStrongOpen : Str := "<strong class=\"font-bold text-gray-900\">".toList
def sEmOpen : Str := "<em class=\"italic text-gray-800\">".toList
def sCodeOpen : Str :=
  "<code class=\"bg-gray-100 px-2 py-1 rounded text-sm font-mono border border-gray-300 text-gray-800\">".toList
def sPreOpen : Str :=
  "<pre class=\"bg-gray-900 text-white p-4 rounded my-4 overflow-x-auto\"><code>".toList

/-- `replace(/\*\*(.*?)\*\*/g, '<strong ...>$1</strong>')`. -/
def boldPass (s : Str) : Str :=
  inlineAux "**".toList sStrongOpen "</strong>".toList false s.length s

/-- `replace(/\*(.*?)\*/g, '<em ...>$1</em>')`. -/
def italicPass (s : Str) : Str :=
  inlineAux "*".toList sEmOpen "</em>".toList false s.length s

/-- `replace(/`(.*?)`/g, '<code ...>$1</code>')`. -/
def codePass (s : Str) : Str :=
  inlineAux "`".toList sCodeOpen "</code>".toList false s.length s

/-- `replace(/```([\s\S]*?)```/g, '<pre ...><code>$1</code></pre>')`. -/
def codeBlockPass (s : Str) : Str :=
  inlineAux "```".toList sPreOpen "</code></pre>".toList true s.length s

def sAPre : Str := "<a href=\"".toList
def sAMid : Str :=
  "\" class=\"text-blue-600 hover:text-blue-800 underline transition-colors\" target=\"_blank\" rel=\"noopener noreferrer\">".toList

/-- Inner part of the link regex `\[(.*?)\]\((.*?)\)` after the opening `[`:
lazily grow the text capture; at each `](` try to complete the url capture
(lazy scan to `)`, no newline), and on failure keep growing the text capture
through the `]`.  Returns (text, url, remainder). -/
def linkInner : Str → Option (Str × Str × Str)
  | [] => none
  | c :: t =>
    if isPre "](".toList (c :: t) then
      match findDelim [')'] (List.drop 1 t) with
      | some (u, after) => some ([], u, after)
      | none =>
        match linkInner t with
        | some (txt, u, after) => some (c :: txt, u, after)
        | none => none
    else if c = '\n' then none
    else
      match linkInner t with
      | some (txt, u, after) => some (c :: txt, u, after)
      | none => none

/-- `replace(/\[(.*?)\]\((.*?)\)/g, '<a href="$2" ...>$1</a>')`. -/
def linkAux : Nat → Str → Str
  | 0, s => s
  | _ + 1, [] => []
  | f + 1, c :: t =>
    if c = '[' then
      match linkInner t with
      | some (txt, u, after) =>
        sAPre ++ u ++ sAMid ++ txt ++ "</a>".toList ++ linkAux f after
      | none => c :: linkAux f t
    else c :: linkAux f t

def linkPass (s : Str) : Str := linkAux s.length s

def sBqOpen : Str :=
  "<blockquote class=\"border-l-4 border-blue-500 pl-4 py-2 my-4 text-gray-600 italic bg-blue-50 rounded-r-lg\">".toList

/-- `replace(/^> (.*$)/gim, '<blockquote ...>$1</blockquote>')`. -/
def bqPass (s : Str) : Str :=
  mapLines (fun l => if isPre "> ".toList l then sBqOpen ++ List.drop 2 l ++ "</blockquote>".toList else l) s

/-- Url part of the general image-anchor regex `!\[.*?\]\(([^)]+)\)`: a greedy
non-empty run of non-`)` characters (newlines allowed) followed by `)`. -/
def anchorUrlScan (s : Str) : Option (Str × Str) :=
  let u := s.takeWhile (fun c => !(c == ')'))
  if u.isEmpty then none
  else if (s.drop u.length).isEmpty then none
  else some (u, s.drop (u.length + 1))

/-- Inner part of `!\[.*?\]\([^)]+\)` after the opening `![`; mirrors
`linkInner` with the greedy non-empty url class. -/
def anchorInner : Str → Option (Str × Str × Str)
  | [] => none
  | c :: t =>
    if isPre "](".toList (c :: t) then
      match anchorUrlScan (List.drop 1 t) with
      | some (u, after) => some ([], u, after)
      | none =>
        match anchorInner t with
        | some (txt, u, after) => some (c :: txt, u, after)
        | none => none
    else if c = '\n' then none
    else
      match anchorInner t with
      | some (txt, u, after) => some (c :: txt, u, after)
      | none => none

/-- `processed.match(/!\[.*?\]\([^)]+\)/g)`: the list of matched substrings,
left to right, non-overlapping. -/
def matchAllAux : Nat → Str → List Str
  | 0, _ => []
  | _ + 1, [] => []
  | f + 1, c :: t =>
    if isPre "![".toList (c :: t) then
      match anchorInner (List.drop 1 t) with
      | some (txt, u, after) =>
        ("![".toList ++ txt ++ "](".toList ++ u ++ [')']) :: matchAllAux f after
      | none => matchAllAux f t
    else matchAllAux f t

def matchAllAnchors (s : Str) : List Str := matchAllAux s.length s

def sUlOpen : Str := "<ul class=\"list-disc ml-6 my-4 space-y-2\">".toList
def sOlOpen : Str := "<ol class=\"list-decimal ml-6 my-4 space-y-2\">".toList
def sLiOpen : Str := "<li class=\"text-gray-700\">".toList
def sPOpen : Str := "<p class=\"my-4 leading-relaxed text-gray-700\">".toList

/-- `line.startsWith('- ') || line.startsWith('* ')`. -/
def isUnordered (l : Str) : Bool := isPre "- ".toList l || isPre "* ".toList l

def ordPrefixLen (l : Str) : Nat := (l.takeWhile Char.isDigit).length

/-- `line.match(/^\d+\. /)` (greedy digits make backtracking moot). -/
def isOrdered (l : Str) : Bool :=
  !(ordPrefixLen l == 0) && isPre ". ".toList (l.drop (ordPrefixLen l))

def passThruTags : List Str :=
  ["<div", "<h", "<blockquote", "<ul", "<ol", "<li", "<pre", "<code", "<a",
   "<strong", "<em", "<img"].map String.toList

/-- The pass-through test for lines that already contain HTML. -/
def isPassThru (l : Str) : Bool := passThruTags.any (fun tag => containsSub tag l)

/-- Forward merge for a multi-line-split `<img` tag: consume raw lines
(appending their trimmed text joined by a single space) until one containing
`>` is found.  Returns the merged line and `some remaining` when a closing
line was found and consumed; `none` mirrors the JavaScript loop leaving the
outer cursor unmoved, so the following lines are processed again. -/
def mergeTag (acc : Str) : List Str → Str × Option (List Str)
  | [] => (acc, none)
  | l :: ls =>
    if l.contains '>' then (acc ++ ' ' :: trimStr l, some ls)
    else mergeTag (acc ++ ' ' :: trimStr l) ls

def closeTags (inUL inOL : Bool) : List Str :=
  (if inUL then ["</ul>".toList] else []) ++ (if inOL then ["</ol>".toList] else [])

/-- The line-oriented list/block state machine of `convertMarkdownToHtml`
(loop over `html.split('\n')` with `inList`/`inOrderedList` flags). -/
def machineAux : Nat → Bool → Bool → List Str → List Str
  | 0, inUL, inOL, _ => closeTags inUL inOL
  | _ + 1, inUL, inOL, [] => closeTags inUL inOL
  | f + 1, inUL, inOL, l :: ls =>
    let t := trimStr l
    if t.isEmpty then closeTags inUL inOL ++ machineAux f false false ls
    else if isUnordered t then
      (if inUL then [] else [sUlOpen]) ++
        (sLiOpen ++ colorPass (t.drop 2) ++ "</li>".toList) :: machineAux f true inOL ls
    else if isOrdered t then
      (if inOL then [] else [sOlOpen]) ++
        (sLiOpen ++ colorPass (t.drop (ordPrefixLen t + 2)) ++ "</li>".toList) :: machineAux f inUL true ls
    else
      closeTags inUL inOL ++
      (if isPre "<img".toList t then
        match mergeTag t ls with
        | (m, some ls2) => m :: machineAux f false false ls2
        | (m, none) => m :: machineAux f false false ls
      else if isPassThru t then t :: machineAux f false false ls
      else if isPre "```".toList t then machineAux f false false ls
      else (sPOpen ++ t ++ "</p>".toList) :: machineAux f false false ls)

def listMachine (s : Str) : Str :=
  joinNL (machineAux ((splitNL s).length + 1) false false (splitNL s))

/-- `blogSchema.methods.convertMarkdownToHtml` (src/models/Category.js):
the sequential regex passes followed by the line state machine. -/
def convertMarkdownToHtml (markdown : Str) : Str :=
  if markdown.isEmpty then []
  else
    listMachine (codeBlockPass (bqPass (codePass (linkPass (italicPass (boldPass
      (h4Pass (h3Pass (h2Pass (h1Pass (colorPass markdown)))))))))))

structure ContentImage where
  url : Str
  public_id : Str
  alt : Str
  placeholder : Option Str
  position : Nat
deriving Repr, DecidableEq

def sBlogImage : Str := "Blog image".toList

/-- JavaScript `image.alt || 'Blog image'`. -/
def altOrDefault (img : ContentImage) : Str :=
  if img.alt.isEmpty then sBlogImage else img.alt

def sImgPre : Str := "<img src=\"".toList
def sImgMid : Str := "\" alt=\"".toList
def sImgPost : Str :=
  "\" class=\"max-w-full h-auto rounded-lg shadow-md mx-auto\" style=\"max-height: 500px; object-fit: contain;\" loading=\"lazy\" />".toList
def sCapPre : Str := "<p class=\"text-sm text-gray-600 mt-2 italic\">".toList
def sDivPre : Str := "<div class=\"blog-image-container my-6 text-center\">".toList

/-- The `imageTag` template literal of `generateProcessedContent`. -/
def imageTagOf (img : ContentImage) : Str :=
  sImgPre ++ img.url ++ sImgMid ++ altOrDefault img ++ sImgPost

/-- The `captionHtml` template literal. -/
def captionOf (img : ContentImage) : Str :=
  if !img.alt.isEmpty && !(img.alt == sBlogImage) then
    sCapPre ++ img.alt ++ "</p>".toList
  else []

/-- The `imageHtml` template literal. -/
def imageHtmlOf (img : ContentImage) : Str :=
  sDivPre ++ imageTagOf img ++ captionOf img ++ "</div>".toList

/-- The image-anchor string `![<alt>](image:<id>)`. -/
def mkAnchor (a pid : Str) : Str :=
  "![".toList ++ a ++ "](image:".toList ++ pid ++ [')']

/-- The `placeholderFormats` array of `generateProcessedContent`. -/
def placeholderFormats (img : ContentImage) : List (Option Str) :=
  [some (mkAnchor (altOrDefault img) img.public_id),
   img.placeholder,
   some (mkAnchor sBlogImage img.public_id),
   some (mkAnchor img.alt img.public_id),
   some ("![](".toList ++ img.public_id ++ [')'])]

/-- The `for (const placeholder of placeholderFormats)` loop: the first
format that is truthy, has truthy trim, and occurs in the content. -/
def firstUsable (s : Str) : List (Option Str) → Option Str
  | [] => none
  | none :: rest => firstUsable s rest
  | some p :: rest =>
    if !p.isEmpty && !(trimStr p).isEmpty && containsSub p s then some p
    else firstUsable s rest

/-- One iteration of the `this.contentImages.forEach((image, index) => ...)`
loop of `generateProcessedContent`: exact-format replacement, else the
positional fallback over all image-anchor-shaped substrings at `index`. -/
def processImage (s : Str) (idx : Nat) (img : ContentImage) : Str :=
  if !img.public_id.isEmpty && !img.url.isEmpty then
    match firstUsable s (placeholderFormats img) with
    | some p => replaceAll s p (imageHtmlOf img)
    | none =>
      let allP := matchAllAnchors s
      if idx < allP.length then replaceAll s (allP.getD idx []) (imageHtmlOf img)
      else s
  else s

def genStep1Aux : Str → Nat → List ContentImage → Str
  | s, _, [] => s
  | s, idx, img :: rest => genStep1Aux (processImage s idx img) (idx + 1) rest

/-- Step 1 of `generateProcessedContent` (placeholder replacement). -/
def genStep1 (content : Str) (images : List ContentImage) : Str :=
  genStep1Aux content 0 images

/-- `blogSchema.methods.generateProcessedContent`: placeholder replacement
followed by markdown conversion. -/
def generateProcessedContent (content : Str) (images : List ContentImage) : Str :=
  convertMarkdownToHtml (genStep1 content images)

structure UploadedFile where
  filename : Str
  path : Str
deriving Repr, DecidableEq

/-- Alt-text selection in `router.post('/')`: the client-supplied alt at this
index when truthy, else `'Blog image'`. -/
def postAltText (alts : List (Option Str)) (idx : Nat) : Str :=
  match alts.getD idx none with
  | some a => if a.isEmpty then sBlogImage else a
  | none => sBlogImage

/-- One iteration of the `req.files['contentImages'].forEach` loop of
`router.post('/')`: replace every occurrence of the temporary anchor
`![altText](image:placeholderId)` with the permanent anchor
`![altText](image:publicId)` and record the pushed `ContentImage`. -/
def postProcessFile (content : Str) (phs alts : List (Option Str)) (idx : Nat)
    (file : UploadedFile) : Str × ContentImage :=
  let publicId := file.filename
  let altText := postAltText alts idx
  let content2 :=
    match phs.getD idx none with
    | some pid =>
      if !pid.isEmpty && !content.isEmpty then
        replaceAll content (mkAnchor altText pid) (mkAnchor altText publicId)
      else content
    | none => content
  (content2,
   { url := file.path, public_id := publicId, alt := altText,
     placeholder := some (mkAnchor altText publicId), position := idx })

def postResolveAux : Str → List ContentImage → Nat → List UploadedFile →
    List (Option Str) → List (Option Str) → Str × List ContentImage
  | content, imgs, _, [], _, _ => (content, imgs)
  | content, imgs, idx, file :: rest, phs, alts =>
    let out := postProcessFile content phs alts idx file
    postResolveAux out.1 (imgs ++ [out.2]) (idx + 1) rest phs alts

/-- The content-image resolution of `router.post('/')`: starting from
`content.trim()`, fold the per-file resolution over the uploaded files. -/
def postResolve (content : Str) (files : List UploadedFile)
    (phs alts : List (Option Str)) : Str × List ContentImage :=
  postResolveAux (trimStr content) [] 0 files phs alts

/-- Fueled embedding of JavaScript `content.split(/\s+/)`: split on maximal
whitespace runs; a leading (resp. trailing) run contributes a leading
(resp. trailing) empty element, and the empty string splits to `[""]`. -/
def splitWsAux : Nat → Str → List Str
  | 0, _ => [[]]
  | _ + 1, [] => [[]]
  | f + 1, c :: t =>
    if isWsChar c then [] :: splitWsAux f (t.dropWhile isWsChar)
    else
      match splitWsAux f t with
      | [] => [[c]]
      | l :: ls => (c :: l) :: ls

def splitWsJS (s : Str) : List Str := splitWsAux s.length s

/-- `const wordCount = this.content.split(/\s+/).length`. -/
def wordCount (c : Str) : Nat := (splitWsJS c).length

def wordsPerMinute : Nat := 200

/-- `Math.ceil(wordCount / wordsPerMinute)` on natural numbers. -/
def calcReadTime (c : Str) : Nat :=
  (wordCount c + (wordsPerMinute - 1)) / wordsPerMinute

/-- The blog document fields relevant to the rendering pipeline. -/
structure BlogDoc where
  content : Str
  contentImages : List ContentImage
  processedContent : Str
  readTime : Nat
  views : Nat
deriving Repr, DecidableEq

/-- The single pre-save hook of `blogSchema` (src/models/Category.js),
with the mongoose `isModified` results passed explicitly. -/
def preSaveHook (b : BlogDoc) (modContent modImages : Bool) : BlogDoc :=
  let b1 := if modContent then { b with readTime := calcReadTime b.content } else b
  if modContent || modImages then
    { b1 with processedContent := generateProcessedContent b1.content b1.contentImages }
  else b1

/-- Persisting a document runs the pre-save hook and stores the result. -/
def saveBlog (b : BlogDoc) (modContent modImages : Bool) : BlogDoc :=
  preSaveHook b modContent modImages

/-- The `router.get('/:slug')` read path (src/routes/blogs.js): re-generate
`processedContent`, increment `views`, then `save()` the document (content
and images untouched, so the hook's `isModified` checks are false). -/
def getBlogBySlug (b : BlogDoc) : BlogDoc :=
  let b1 := { b with processedContent := generateProcessedContent b.content b.contentImages }
  let b2 := { b1 with views := b1.views + 1 }
  saveBlog b2 false false

/-- Character class used to state the hypotheses of the general theorems:
letters, digits and spaces, i.e. text that none of the converter's regex
passes can rewrite. -/
def benignChar (c : Char) : Bool := c.isAlpha || c.isDigit || c == ' '

/-- A 400-word content string (400 one-letter words separated by single
spaces), used to witness the read-time claim. -/
def w400content : Str := List.intercalate [' '] (List.replicate 400 ['a'])

/-- Image of the C1 counterexample. -/
def c1CexImage : ContentImage :=
  { url := "u".toList, public_id := "p".toList, alt := "a".toList,
    placeholder := some "![a](image:p)".toList, position := 0 }

/-- Content of the C1 counterexample: the stored anchor occurs twice. -/
def c1CexContent : Str := "![a](image:p) ![a](image:p)".toList

/-- Image of the C4 counterexample (exact anchor absent from the content). -/
def c4CexImage : ContentImage :=
  { url := "u".toList, public_id := "p1".toList, alt := "a".toList,
    placeholder := some (mkAnchor "a".toList "p1".toList), position := 0 }

/-- Content of the C4 counterexample: one anchor-shaped substring with
mismatched alt text. -/
def c4CexContent : Str := "![wrong](image:tmp)".toList

/-- Uploaded file of the C3 counterexample. -/
def c3CexFile : UploadedFile := { filename := "perm9".toList, path := "httpsx".toList }

/-- Content of the C3 counterexample: the temporary anchor occurs twice. -/
def c3CexContent : Str := "A ![pic](image:tmp1) B ![pic](image:tmp1) C".toList

/-- Blog document of the C5 counterexample: its stored `processedContent`
differs from what the current converter produces. -/
def c5CexBlog : BlogDoc :=
  { content := "hello".toList, contentImages := [], processedContent := "stale".toList,
    readTime := 0, views := 0 }

/-- The unordered-list half of the expected C8 output. -/
def c8UlPart : Str :=
  ("<ul class=\"list-disc ml-6 my-4 space-y-2\">\n" ++
   "<li class=\"text-gray-700\">a</li>\n<li class=\"text-gray-700\">b</li>\n</ul>").toList

/-- The ordered-list half of the expected C8 output. -/
def c8OlPart : Str :=
  ("<ol class=\"list-decimal ml-6 my-4 space-y-2\">\n" ++
   "<li class=\"text-gray-700\">x</li>\n<li class=\"text-gray-700\">y</li>\n</ol>").toList

/-! ### Generic lemmas about prefix testing, occurrence counting and replacement -/

theorem isPre_append_ext (n : Str) : ∀ (a : Str), isPre n a = true → ∀ b, isPre n (a ++ b) = true := by
  induction n with
  | nil => intro a _ b; rfl
  | cons c n' ih =>
    intro a h b
    cases a with
    | nil => simp [isPre] at h
    | cons d a' =>
      simp only [List.cons_append, isPre, Bool.and_eq_true, beq_iff_eq] at h ⊢
      exact ⟨h.1, ih a' h.2 b⟩

theorem isPre_refl (n : Str) : isPre n n = true := by
  induction n with
  | nil => rfl
  | cons c n' ih => simp [isPre, ih]

theorem isPre_self_append (n b : Str) : isPre n (n ++ b) = true :=
  isPre_append_ext n n (isPre_refl n) b

theorem isPre_head2 (a : Char) (d l : Str) (h : isPre (a :: d) l = true) : l.head? = some a := by
  cases l with
  | nil => simp [isPre] at h
  | cons b l' =>
    simp only [isPre, Bool.and_eq_true, beq_iff_eq] at h
    simp [h.1]

theorem isPre_length_le : ∀ (n s : Str), isPre n s = true → n.length ≤ s.length := by
  intro n
  induction n with
  | nil => intro s _; simp
  | cons c n' ih =>
    intro s h
    cases s with
    | nil => simp [isPre] at h
    | cons d s' =>
      simp only [isPre, Bool.and_eq_true, beq_iff_eq] at h
      simpa using ih s' h.2

theorem isPre_false_append (n : Str) : ∀ (a : Str), isPre n a = false → n.length ≤ a.length →
    ∀ b, isPre n (a ++ b) = false := by
  induction n with
  | nil => intro a h _ _; simp [isPre] at h
  | cons c n' ih =>
    intro a h hl b
    cases a with
    | nil => simp at hl
    | cons d a' =>
      simp only [isPre, Bool.and_eq_false_iff] at h
      simp only [List.cons_append, isPre, Bool.and_eq_false_iff]
      rcases h with h | h
      · exact Or.inl h
      · right
        exact ih a' h (by simpa using hl) b

theorem isPre_trans (m : Str) : ∀ (n s : Str), isPre m n = true → isPre n s = true →
    isPre m s = true := by
  induction m with
  | nil => intro n s _ _; rfl
  | cons a m' ih =>
    intro n s h1 h2
    cases n with
    | nil => simp [isPre] at h1
    | cons b n' =>
      cases s with
      | nil => simp [isPre] at h2
      | cons c s' =>
        simp only [isPre, Bool.and_eq_true, beq_iff_eq] at h1 h2 ⊢
        exact ⟨h1.1.trans h2.1, ih n' s' h1.2 h2.2⟩

theorem isPre_cancel (a : Str) : ∀ (b c : Str), isPre (a ++ b) (a ++ c) = isPre b c := by
  induction a with
  | nil => intro b c; rfl
  | cons d a' ih => intro b c; simp [isPre, ih]

theorem isPre_false_via (m n a b : Str) (hmn : isPre m n = true) (hma : isPre m a = false)
    (hl : m.length ≤ a.length) : isPre n (a ++ b) = false := by
  cases h : isPre n (a ++ b) with
  | false => rfl
  | true =>
    have h2 := isPre_trans m n (a ++ b) hmn h
    rw [isPre_false_append m a hma hl b] at h2
    exact absurd h2 (by simp)

theorem head_eq_of_some (n : Str) (hc : Char) (hh : n.head? = some hc) :
    ∃ n2, n = hc :: n2 := by
  cases n with
  | nil => simp at hh
  | cons a n2 =>
    simp only [List.head?_cons, Option.some.injEq] at hh
    exact ⟨n2, by rw [hh]⟩

theorem isPre_false_of_head_ne (n : Str) (hc : Char) (hh : n.head? = some hc)
    (c : Char) (t : Str) (hne : c ≠ hc) : isPre n (c :: t) = false := by
  obtain ⟨n2, rfl⟩ := head_eq_of_some n hc hh
  cases h : isPre (hc :: n2) (c :: t) with
  | false => rfl
  | true =>
    have h2 := isPre_head2 hc n2 (c :: t) h
    simp only [List.head?_cons, Option.some.injEq] at h2
    exact absurd h2 hne

theorem occ_zero_of_head_notMem (n : Str) (hc : Char) (hh : n.head? = some hc) :
    ∀ s : Str, hc ∉ s → occCount n s = 0 := by
  intro s
  induction s with
  | nil => intro _; rfl
  | cons c t ih =>
    intro hm
    have hcne : c ≠ hc := fun h => hm (h ▸ List.mem_cons_self c t)
    have h1 : isPre n (c :: t) = false := isPre_false_of_head_ne n hc hh c t hcne
    have h2 : occCount n (c :: t) = occCount n t := by simp [occCount, h1]
    rw [h2]
    exact ih (fun h => hm (List.mem_cons_of_mem c h))

theorem occ_append_left_skip (n : Str) (hc : Char) (hh : n.head? = some hc) :
    ∀ (a b : Str), hc ∉ a → occCount n (a ++ b) = occCount n b := by
  intro a
  induction a with
  | nil => intro b _; rfl
  | cons c a' ih =>
    intro b hm
    have hcne : c ≠ hc := fun h => hm (h ▸ List.mem_cons_self c a')
    have h1 : isPre n (c :: (a' ++ b)) = false :=
      isPre_false_of_head_ne n hc hh c (a' ++ b) hcne
    have h2 : occCount n ((c :: a') ++ b) = occCount n (a' ++ b) := by
      simp [occCount, h1]
    rw [h2]
    exact ih b (fun h => hm (List.mem_cons_of_mem c h))

theorem occ_skip_piece (n : Str) (hc : Char) (a2 b : Str) (hh : n.head? = some hc)
    (hm : hc ∉ a2) (hpre : isPre n (hc :: (a2 ++ b)) = false) :
    occCount n ((hc :: a2) ++ b) = occCount n b := by
  have h2 : occCount n ((hc :: a2) ++ b) = occCount n (a2 ++ b) := by
    simp [occCount, hpre]
  rw [h2]
  exact occ_append_left_skip n hc hh a2 b hm

theorem occ_cons_match (n : Str) (c : Char) (t : Str) (h : isPre n (c :: t) = true) :
    occCount n (c :: t) = 1 + occCount n t := by
  simp [occCount, h]

theorem replaceAllAux_id (n r : Str) (hc : Char) (hh : n.head? = some hc) :
    ∀ (f : Nat) (s : Str), hc ∉ s → replaceAllAux n r f s = s := by
  intro f
  induction f with
  | zero => intro s _; rfl
  | succ f' ih =>
    intro s hm
    cases s with
    | nil => rfl
    | cons c t =>
      have hcne : c ≠ hc := fun h => hm (h ▸ List.mem_cons_self c t)
      have h1 : isPre n (c :: t) = false := isPre_false_of_head_ne n hc hh c t hcne
      have h3 := ih t (fun h => hm (List.mem_cons_of_mem c h))
      simp [replaceAllAux, h1, h3]

theorem replaceAllAux_skip (n r : Str) (hc : Char) (hh : n.head? = some hc) :
    ∀ (x : Str) (f : Nat), hc ∉ x → x.length ≤ f → ∀ t,
      replaceAllAux n r f (x ++ t) = x ++ replaceAllAux n r (f - x.length) t := by
  intro x
  induction x with
  | nil => intro f _ _ t; simp
  | cons c x' ih =>
    intro f hm hl t
    cases f with
    | zero => simp at hl
    | succ f' =>
      have hcne : c ≠ hc := fun h => hm (h ▸ List.mem_cons_self c x')
      have h1 : isPre n (c :: (x' ++ t)) = false :=
        isPre_false_of_head_ne n hc hh c (x' ++ t) hcne
      have harg := ih f' (fun h => hm (List.mem_cons_of_mem c h)) (by simpa using hl) t
      simp [replaceAllAux, h1, harg, Nat.succ_sub_succ]

theorem replaceAllAux_match (hc : Char) (n2 r y : Str) (f : Nat) :
    replaceAllAux (hc :: n2) r (f + 1) ((hc :: n2) ++ y) = r ++ replaceAllAux (hc :: n2) r f y := by
  have hpre : isPre (hc :: n2) (hc :: (n2 ++ y)) = true := by
    have h0 := isPre_self_append (hc :: n2) y
    rw [List.cons_append] at h0
    exact h0
  have hdrop : List.drop ((hc :: n2).length - 1) (n2 ++ y) = y := by
    simp only [List.length_cons, Nat.add_sub_cancel]
    exact List.drop_left n2 y
  simp [replaceAllAux, hpre, hdrop]

theorem replaceAll_single (x n y r : Str) (hc : Char) (hh : n.head? = some hc)
    (hx : hc ∉ x) (hy : hc ∉ y) :
    replaceAll (x ++ n ++ y) n r = x ++ r ++ y := by
  obtain ⟨n2, rfl⟩ := head_eq_of_some n hc hh
  unfold replaceAll
  rw [List.append_assoc]
  have hlen2 : (x ++ ((hc :: n2) ++ y)).length = x.length + (n2.length + y.length + 1) := by
    simp [List.length_append]
  rw [replaceAllAux_skip (hc :: n2) r hc hh x _ hx (by rw [hlen2]; omega) ((hc :: n2) ++ y)]
  rw [hlen2]
  have hsub : x.length + (n2.length + y.length + 1) - x.length = (n2.length + y.length) + 1 := by
    omega
  rw [hsub, replaceAllAux_match hc n2 r y (n2.length + y.length)]
  rw [replaceAllAux_id (hc :: n2) r hc hh _ y hy]
  simp

theorem containsSub_of_isPre (n s : Str) (h : isPre n s = true) : containsSub n s = true := by
  cases s with
  | nil => exact h
  | cons c t => simp [containsSub, h]

theorem containsSub_append_right (n : Str) : ∀ (a b : Str), containsSub n b = true →
    containsSub n (a ++ b) = true := by
  intro a
  induction a with
  | nil => intro b h; exact h
  | cons c a' ih =>
    intro b h
    simp only [List.cons_append, containsSub, Bool.or_eq_true]
    exact Or.inr (ih b h)

theorem containsSub_middle (n x y : Str) : containsSub n (x ++ n ++ y) = true := by
  rw [List.append_assoc]
  exact containsSub_append_right n x (n ++ y) (containsSub_of_isPre n (n ++ y) (isPre_self_append n y))

/-! ### Lemmas about trimming, line splitting and joining -/

theorem dropWhile_length_le (p : Char → Bool) : ∀ (l : Str), (l.dropWhile p).length ≤ l.length := by
  intro l
  induction l with
  | nil => simp
  | cons c t ih =>
    by_cases h : p c
    · simp only [List.dropWhile_cons, h, if_true, List.length_cons]
      exact Nat.le_trans ih (Nat.le_succ _)
    · simp [List.dropWhile_cons, h]

theorem dropWhile_eq_self_head (p : Char → Bool) (c : Char) (t : Str)
    (h : (c :: t).dropWhile p = c :: t) : p c = false := by
  cases hp : p c with
  | false => rfl
  | true =>
    rw [List.dropWhile_cons, hp] at h
    simp only [if_true] at h
    have h1 := dropWhile_length_le p t
    rw [h] at h1
    simp at h1

theorem dropWhile_cons_false (p : Char → Bool) (c : Char) (t : Str) (h : p c = false) :
    (c :: t).dropWhile p = c :: t := by
  rw [List.dropWhile_cons, h]
  simp

theorem dw_app_nil (p : Char → Bool) : ∀ (x t : Str), x.dropWhile p = [] →
    (x ++ t).dropWhile p = t.dropWhile p := by
  intro x
  induction x with
  | nil => intro t _; rfl
  | cons c x' ih =>
    intro t h
    rw [List.dropWhile_cons] at h
    by_cases hp : p c
    · rw [List.cons_append, List.dropWhile_cons]
      simp only [hp, if_true] at h ⊢
      exact ih t h
    · simp [hp] at h

theorem dw_app_cons (p : Char → Bool) : ∀ (x t : Str), x.dropWhile p ≠ [] →
    (x ++ t).dropWhile p = x.dropWhile p ++ t := by
  intro x
  induction x with
  | nil => intro t h; simp at h
  | cons c x' ih =>
    intro t h
    rw [List.dropWhile_cons] at h ⊢
    by_cases hp : p c
    · simp only [hp, if_true] at h ⊢
      rw [List.cons_append, List.dropWhile_cons]
      simp only [hp, if_true]
      exact ih t h
    · simp only [hp, if_false] at h ⊢
      rw [List.cons_append, List.dropWhile_cons]
      simp [hp]

theorem mem_dropWhile_sub (p : Char → Bool) : ∀ (l : Str) (c : Char),
    c ∈ l.dropWhile p → c ∈ l := by
  intro l
  induction l with
  | nil => intro c h; simp at h
  | cons d t ih =>
    intro c h
    rw [List.dropWhile_cons] at h
    by_cases hp : p d
    · simp only [hp, if_true] at h
      exact List.mem_cons_of_mem d (ih c h)
    · simp only [hp, if_false] at h
      exact h

theorem mem_trimL_sub (x : Str) (c : Char) (h : c ∈ trimL x) : c ∈ x :=
  mem_dropWhile_sub isWsChar x c h

theorem mem_trimR_sub (y : Str) (c : Char) (h : c ∈ trimR y) : c ∈ y := by
  unfold trimR at h
  rw [List.mem_reverse] at h
  have h2 := mem_dropWhile_sub isWsChar y.reverse c h
  rwa [List.mem_reverse] at h2

theorem trimL_append_stable (x t : Str) (ht : t.dropWhile isWsChar = t) :
    trimL (x ++ t) = trimL x ++ t := by
  unfold trimL
  cases h : x.dropWhile isWsChar with
  | nil =>
    have h2 := dw_app_nil isWsChar x t h
    simp [h2, ht, h]
  | cons d w =>
    have h2 := dw_app_cons isWsChar x t (by rw [h]; simp)
    simp [h2, h]

theorem trimR_append_stable (a y : Str) (ha : a.reverse.dropWhile isWsChar = a.reverse) :
    trimR (a ++ y) = a ++ trimR y := by
  unfold trimR
  rw [List.reverse_append]
  cases h : y.reverse.dropWhile isWsChar with
  | nil =>
    have h2 := dw_app_nil isWsChar y.reverse a.reverse h
    simp [h2, ha, h]
  | cons d w =>
    have h2 := dw_app_cons isWsChar y.reverse a.reverse (by rw [h]; simp)
    simp [h2, h]

theorem stable_of_head_not_ws (c : Char) (t : Str) (h : isWsChar c = false) :
    (c :: t).dropWhile isWsChar = c :: t :=
  dropWhile_cons_false isWsChar c t h

theorem trim_decomp (x m y : Str) (c0 d0 : Char) (m1 m2 : Str)
    (hm1 : m = c0 :: m1) (hm2 : m.reverse = d0 :: m2)
    (hc0 : isWsChar c0 = false) (hd0 : isWsChar d0 = false) :
    trimStr (x ++ m ++ y) = trimL x ++ m ++ trimR y := by
  unfold trimStr
  rw [List.append_assoc]
  have hmy : (m ++ y).dropWhile isWsChar = m ++ y := by
    rw [hm1, List.cons_append]
    exact stable_of_head_not_ws c0 (m1 ++ y) hc0
  rw [trimL_append_stable x (m ++ y) hmy]
  rw [← List.append_assoc]
  have hrev : (trimL x ++ m).reverse.dropWhile isWsChar = (trimL x ++ m).reverse := by
    rw [List.reverse_append, hm2, List.cons_append]
    exact stable_of_head_not_ws d0 (m2 ++ (trimL x).reverse) hd0
  rw [trimR_append_stable (trimL x ++ m) y hrev]

theorem joinNL_nil : joinNL [] = [] := rfl

theorem joinNL_one (l : Str) : joinNL [l] = l := rfl

theorem joinNL_cons2 (l l2 : Str) (ls2 : List Str) :
    joinNL (l :: l2 :: ls2) = l ++ '\n' :: joinNL (l2 :: ls2) := rfl

theorem splitNL_ne_nil : ∀ (s : Str), splitNL s ≠ [] := by
  intro s
  cases s with
  | nil => simp [splitNL]
  | cons c t =>
    rw [splitNL]
    by_cases h : c = '\n'
    · simp [h]
    · simp only [h, if_false]
      cases h2 : splitNL t with
      | nil => simp
      | cons l ls => simp

theorem joinNL_splitNL : ∀ (s : Str), joinNL (splitNL s) = s := by
  intro s
  induction s with
  | nil => rfl
  | cons c t ih =>
    rw [splitNL]
    by_cases h : c = '\n'
    · subst h
      simp only [if_true]
      cases h2 : splitNL t with
      | nil => exact absurd h2 (splitNL_ne_nil t)
      | cons l ls =>
        rw [h2] at ih
        rw [joinNL_cons2 [] l ls, ih]
        rfl
    · simp only [h, if_false]
      cases h2 : splitNL t with
      | nil => exact absurd h2 (splitNL_ne_nil t)
      | cons l ls =>
        rw [h2] at ih
        cases ls with
        | nil =>
          rw [joinNL_one] at ih
          rw [joinNL_one, ih]
        | cons l2 ls2 =>
          rw [joinNL_cons2 (c :: l) l2 ls2]
          rw [joinNL_cons2 l l2 ls2] at ih
          rw [List.cons_append, ih]

theorem splitNL_mem_chars : ∀ (s : Str) (l : Str), l ∈ splitNL s → ∀ c ∈ l, c ∈ s := by
  intro s
  induction s with
  | nil =>
    intro l hl c hc
    simp only [splitNL, List.mem_singleton] at hl
    rw [hl] at hc
    simp at hc
  | cons d t ih =>
    intro l hl c hc
    rw [splitNL] at hl
    by_cases h : d = '\n'
    · simp only [h, if_true] at hl
      rcases List.mem_cons.mp hl with h2 | h2
      · rw [h2] at hc; simp at hc
      · exact List.mem_cons_of_mem d (ih l h2 c hc)
    · simp only [h, if_false] at hl
      cases h2 : splitNL t with
      | nil => exact absurd h2 (splitNL_ne_nil t)
      | cons l0 ls =>
        rw [h2] at hl
        rcases List.mem_cons.mp hl with h3 | h3
        · rw [h3] at hc
          rcases List.mem_cons.mp hc with h4 | h4
          · rw [h4]; exact List.mem_cons_self d t
          · have h5 : l0 ∈ splitNL t := by rw [h2]; exact List.mem_cons_self l0 ls
            exact List.mem_cons_of_mem d (ih l0 h5 c h4)
        · have h5 : l ∈ splitNL t := by rw [h2]; exact List.mem_cons_of_mem l0 h3
          exact List.mem_cons_of_mem d (ih l h5 c hc)

theorem splitNL_single : ∀ (s : Str), '\n' ∉ s → splitNL s = [s] := by
  intro s
  induction s with
  | nil => intro _; rfl
  | cons c t ih =>
    intro hm
    have hc : c ≠ '\n' := fun h => hm (h ▸ List.mem_cons_self c t)
    rw [splitNL]
    simp only [hc, if_false]
    rw [ih (fun h => hm (List.mem_cons_of_mem c h))]

theorem map_id_of_mem : ∀ (ls : List Str) (f : Str → Str), (∀ l ∈ ls, f l = l) →
    ls.map f = ls := by
  intro ls
  induction ls with
  | nil => intro f _; rfl
  | cons a as ih =>
    intro f hh
    simp only [List.map_cons]
    rw [hh a (List.mem_cons_self a as), ih f (fun l hl => hh l (List.mem_cons_of_mem a hl))]

theorem mapLines_id (f : Str → Str) (s : Str) (h : ∀ l ∈ splitNL s, f l = l) :
    mapLines f s = s := by
  unfold mapLines
  rw [map_id_of_mem (splitNL s) f h]
  exact joinNL_splitNL s

/-! ### Identity of the converter passes on strings without their trigger characters -/

theorem notMem_of_all (p : Char → Bool) (l : Str) (h : ∀ c ∈ l, p c = true)
    (a : Char) (ha : p a = false) : a ∉ l := by
  intro hmem
  rw [h a hmem] at ha
  exact Bool.noConfusion ha

theorem isPre_false_of_head_notMem (a : Char) (d l : Str) (hm : a ∉ l) :
    isPre (a :: d) l = false := by
  cases l with
  | nil => rfl
  | cons c t =>
    have hne : a ≠ c := fun h => hm (h ▸ List.mem_cons_self c t)
    simp [isPre, hne]

theorem colorAux_id : ∀ (f : Nat) (s : Str), '\x7b' ∉ s → colorAux f s = s := by
  intro f
  induction f with
  | zero => intro s _; rfl
  | succ f' ih =>
    intro s hm
    cases s with
    | nil => rfl
    | cons c t =>
      have hcne : c ≠ '\x7b' := fun h => hm (h ▸ List.mem_cons_self c t)
      have h1 : isPre sColorOpen (c :: t) = false :=
        isPre_false_of_head_ne sColorOpen '\x7b' (by decide) c t hcne
      have h2 := ih t (fun h => hm (List.mem_cons_of_mem c h))
      simp [colorAux, h1, h2]

theorem colorPass_id (s : Str) (hm : '\x7b' ∉ s) : colorPass s = s :=
  colorAux_id s.length s hm

theorem inlineAux_id (d openTag closeTag : Str) (ml : Bool) (hc : Char)
    (hh : d.head? = some hc) :
    ∀ (f : Nat) (s : Str), hc ∉ s → inlineAux d openTag closeTag ml f s = s := by
  intro f
  induction f with
  | zero => intro s _; rfl
  | succ f' ih =>
    intro s hm
    cases s with
    | nil => rfl
    | cons c t =>
      have hcne : c ≠ hc := fun h => hm (h ▸ List.mem_cons_self c t)
      have h1 : isPre d (c :: t) = false := isPre_false_of_head_ne d hc hh c t hcne
      have h2 := ih t (fun h => hm (List.mem_cons_of_mem c h))
      simp [inlineAux, h1, h2]

theorem boldPass_id (s : Str) (hm : '*' ∉ s) : boldPass s = s :=
  inlineAux_id "**".toList sStrongOpen "</strong>".toList false '*' (by decide) s.length s hm

theorem italicPass_id (s : Str) (hm : '*' ∉ s) : italicPass s = s :=
  inlineAux_id "*".toList sEmOpen "</em>".toList false '*' (by decide) s.length s hm

theorem codePass_id (s : Str) (hm : '`' ∉ s) : codePass s = s :=
  inlineAux_id "`".toList sCodeOpen "</code>".toList false '`' (by decide) s.length s hm

theorem codeBlockPass_id (s : Str) (hm : '`' ∉ s) : codeBlockPass s = s :=
  inlineAux_id "```".toList sPreOpen "</code></pre>".toList true '`' (by decide) s.length s hm

theorem linkAux_id : ∀ (f : Nat) (s : Str), '[' ∉ s → linkAux f s = s := by
  intro f
  induction f with
  | zero => intro s _; rfl
  | succ f' ih =>
    intro s hm
    cases s with
    | nil => rfl
    | cons c t =>
      have hcne : c ≠ '[' := fun h => hm (h ▸ List.mem_cons_self c t)
      have h2 := ih t (fun h => hm (List.mem_cons_of_mem c h))
      simp [linkAux, hcne, h2]

theorem linkPass_id (s : Str) (hm : '[' ∉ s) : linkPass s = s :=
  linkAux_id s.length s hm

theorem headerLine_id (mark openTag closeTag : Str) (hc : Char) (hh : mark.head? = some hc)
    (l : Str) (hm : hc ∉ l) : headerLine mark openTag closeTag l = l := by
  obtain ⟨m2, rfl⟩ := head_eq_of_some mark hc hh
  have h1 : isPre (hc :: m2) l = false := isPre_false_of_head_notMem hc m2 l hm
  simp [headerLine, h1]

theorem h1Pass_id (s : Str) (hm : '#' ∉ s) : h1Pass s = s := by
  apply mapLines_id
  intro l hl
  exact headerLine_id "# ".toList sH1Open "</h1>".toList '#' (by decide) l
    (fun h => hm (splitNL_mem_chars s l hl '#' h))

theorem h2Pass_id (s : Str) (hm : '#' ∉ s) : h2Pass s = s := by
  apply mapLines_id
  intro l hl
  exact headerLine_id "## ".toList sH2Open "</h2>".toList '#' (by decide) l
    (fun h => hm (splitNL_mem_chars s l hl '#' h))

theorem h3Pass_id (s : Str) (hm : '#' ∉ s) : h3Pass s = s := by
  apply mapLines_id
  intro l hl
  exact headerLine_id "### ".toList sH3Open "</h3>".toList '#' (by decide) l
    (fun h => hm (splitNL_mem_chars s l hl '#' h))

theorem h4Pass_id (s : Str) (hm : '#' ∉ s) : h4Pass s = s := by
  apply mapLines_id
  intro l hl
  exact headerLine_id "#### ".toList sH4Open "</h4>".toList '#' (by decide) l
    (fun h => hm (splitNL_mem_chars s l hl '#' h))

theorem bqPass_id_of_heads (s : Str)
    (h : ∀ l ∈ splitNL s, isPre "> ".toList l = false) : bqPass s = s := by
  apply mapLines_id
  intro l hl
  have h2 : isPre ['>', ' '] l = false := h l hl
  simp [h2]

/-! ### The machine on a single pass-through line, and counting over the image html -/

theorem machineAux_nil_ff : ∀ f, machineAux f false false [] = [] := by
  intro f
  cases f with
  | zero => rfl
  | succ f' => rfl

theorem listMachine_single (s : Str) (hnl : '\n' ∉ s)
    (h0 : (trimStr s).isEmpty = false)
    (h1 : isUnordered (trimStr s) = false)
    (h2 : isOrdered (trimStr s) = false)
    (h3 : isPre "<img".toList (trimStr s) = false)
    (h4 : isPassThru (trimStr s) = true) :
    listMachine s = trimStr s := by
  unfold listMachine
  rw [splitNL_single s hnl]
  have h3b : isPre ['<', 'i', 'm', 'g'] (trimStr s) = false := h3
  have hnil := machineAux_nil_ff
  simp [machineAux, h0, h1, h2, h3b, h4, closeTags, hnil, joinNL]

theorem sDivPre_cons :
    sDivPre = '<' :: "div class=\"blog-image-container my-6 text-center\">".toList := by decide

theorem sImgPre_cons : sImgPre = '<' :: "img src=\"".toList := by decide

theorem imageHtml_cons (img : ContentImage) :
    imageHtmlOf img =
      '<' :: ("div class=\"blog-image-container my-6 text-center\">".toList ++
        (imageTagOf img ++ (captionOf img ++ "</div>".toList))) := by
  unfold imageHtmlOf
  rw [sDivPre_cons, List.cons_append]
  simp [List.append_assoc]

theorem occ_skip_run (n : Str) (hc : Char) {R : Str} (run : Str)
    (hh : n.head? = some hc) (hrun : hc ∉ run) :
    occCount n (run ++ R) = occCount n R :=
  occ_append_left_skip n hc hh run R hrun

theorem occ_skip_piece_guard (n m piece tail : Str) (hc : Char) {R : Str}
    (hp : piece = hc :: tail) (htail : hc ∉ tail) (hh : n.head? = some hc)
    (hmn : isPre m n = true) (hfalse : isPre m piece = false)
    (hlen : m.length ≤ piece.length) :
    occCount n (piece ++ R) = occCount n R := by
  subst hp
  apply occ_skip_piece n hc tail R hh htail
  have h2 := isPre_false_via m n (hc :: tail) R hmn hfalse hlen
  simpa using h2

theorem occ_skip_caption (n : Str) (img : ContentImage) {R : Str}
    (hh : n.head? = some '<') (hia : isPre ['<', 'i'] n = true) (halt : '<' ∉ img.alt) :
    occCount n (captionOf img ++ R) = occCount n R := by
  unfold captionOf
  by_cases hcond : (!img.alt.isEmpty && !(img.alt == sBlogImage)) = true
  · rw [if_pos hcond]
    rw [List.append_assoc, List.append_assoc]
    rw [occ_skip_piece_guard n ['<', 'i'] sCapPre
      "p class=\"text-sm text-gray-600 mt-2 italic\">".toList '<' (by decide) (by decide) hh hia
      (by decide) (by decide)]
    rw [occ_skip_run n '<' img.alt hh halt]
    rw [occ_skip_piece_guard n ['<', 'i'] "</p>".toList "/p>".toList '<' (by decide) (by decide)
      hh hia (by decide) (by decide)]
  · rw [if_neg hcond]
    simp

theorem altOrDefault_not_lt (img : ContentImage) (halt : '<' ∉ img.alt) :
    '<' ∉ altOrDefault img := by
  unfold altOrDefault
  by_cases h : img.alt.isEmpty = true
  · rw [if_pos h]; decide
  · rw [if_neg h]; exact halt

theorem occ_imageHtml_line (n : Str) (img : ContentImage) (xt yt : Str)
    (hh : n.head? = some '<') (hia : isPre ['<', 'i'] n = true)
    (hpos : isPre n ('<' :: ("img src=\"".toList ++ (img.url ++ (sImgMid ++
      (altOrDefault img ++ (sImgPost ++ (captionOf img ++
        ("</div>".toList ++ yt)))))))) = true)
    (hxt : '<' ∉ xt) (hyt : '<' ∉ yt) (hurl : '<' ∉ img.url) (halt : '<' ∉ img.alt) :
    occCount n (xt ++ imageHtmlOf img ++ yt) = 1 := by
  have haltD : '<' ∉ altOrDefault img := altOrDefault_not_lt img halt
  simp only [imageHtmlOf, imageTagOf, List.append_assoc]
  rw [occ_skip_run n '<' xt hh hxt]
  rw [occ_skip_piece_guard n ['<', 'i'] sDivPre
    "div class=\"blog-image-container my-6 text-center\">".toList '<' sDivPre_cons (by decide) hh hia
    (by decide) (by decide)]
  rw [sImgPre_cons, List.cons_append]
  rw [occ_cons_match n '<' _ hpos]
  rw [occ_skip_run n '<' "img src=\"".toList hh (by decide)]
  rw [occ_skip_run n '<' img.url hh hurl]
  rw [occ_skip_run n '<' sImgMid hh (by decide)]
  rw [occ_skip_run n '<' (altOrDefault img) hh haltD]
  rw [occ_skip_run n '<' sImgPost hh (by decide)]
  rw [occ_skip_caption n img hh hia halt]
  rw [occ_skip_piece_guard n ['<', 'i'] "</div>".toList "/div>".toList '<' (by decide) (by decide)
    hh hia (by decide) (by decide)]
  rw [occ_zero_of_head_notMem n '<' hh yt hyt]

/-! ### Character analysis of a line containing the rendered image html -/

theorem char_notMem_imageHtml (img : ContentImage) (a : Char)
    (hurl : a ∉ img.url) (halt : a ∉ img.alt)
    (h1 : a ∉ sDivPre) (h2 : a ∉ sImgPre) (h3 : a ∉ sImgMid) (h4 : a ∉ sImgPost)
    (h5 : a ∉ sCapPre) (h6 : a ∉ "</p>".toList) (h7 : a ∉ "</div>".toList)
    (h8 : a ∉ sBlogImage) :
    a ∉ imageHtmlOf img := by
  have haltD : a ∉ altOrDefault img := by
    unfold altOrDefault
    by_cases h : img.alt.isEmpty = true
    · rw [if_pos h]; exact h8
    · rw [if_neg h]; exact halt
  have hcapt : a ∉ captionOf img := by
    unfold captionOf
    by_cases h : (!img.alt.isEmpty && !(img.alt == sBlogImage)) = true
    · rw [if_pos h]
      intro hm2
      rcases List.mem_append.mp hm2 with h9 | h9
      · rcases List.mem_append.mp h9 with h10 | h10
        · exact h5 h10
        · exact halt h10
      · exact h6 h9
    · rw [if_neg h]; simp
  intro hmem
  simp only [imageHtmlOf, imageTagOf, List.mem_append, or_assoc] at hmem
  rcases hmem with h9 | h9 | h9 | h9 | h9 | h9 | h9 | h9 <;>
    first
      | exact h1 h9
      | exact h2 h9
      | exact hurl h9
      | exact h3 h9
      | exact haltD h9
      | exact h4 h9
      | exact hcapt h9
      | exact h7 h9

theorem char_notMem_line (x y : Str) (img : ContentImage) (a : Char)
    (hx : ∀ c ∈ x, benignChar c = true) (hy : ∀ c ∈ y, benignChar c = true)
    (hurl : ∀ c ∈ img.url, benignChar c = true) (halt : ∀ c ∈ img.alt, benignChar c = true)
    (hben : benignChar a = false)
    (h1 : a ∉ sDivPre) (h2 : a ∉ sImgPre) (h3 : a ∉ sImgMid) (h4 : a ∉ sImgPost)
    (h5 : a ∉ sCapPre) (h6 : a ∉ "</p>".toList) (h7 : a ∉ "</div>".toList)
    (h8 : a ∉ sBlogImage) :
    a ∉ x ++ imageHtmlOf img ++ y := by
  have hihtml := char_notMem_imageHtml img a (notMem_of_all benignChar img.url hurl a hben)
    (notMem_of_all benignChar img.alt halt a hben) h1 h2 h3 h4 h5 h6 h7 h8
  intro hmem
  rcases List.mem_append.mp hmem with h9 | h9
  · rcases List.mem_append.mp h9 with h10 | h10
    · exact notMem_of_all benignChar x hx a hben h10
    · exact hihtml h10
  · exact notMem_of_all benignChar y hy a hben h9

theorem isPre_false_line (x y : Str) (img : ContentImage) (a : Char) (d : Str)
    (hx : ∀ c ∈ x, benignChar c = true)
    (hne : a ≠ '<') (hben : benignChar a = false) :
    isPre (a :: d) (x ++ imageHtmlOf img ++ y) = false := by
  cases x with
  | nil =>
    simp only [List.nil_append]
    rw [imageHtml_cons, List.cons_append]
    exact isPre_false_of_head_ne (a :: d) a (by simp) '<' _ (fun h => hne h.symm)
  | cons c x' =>
    have hcb := hx c (List.mem_cons_self c x')
    have hcne : c ≠ a := fun h => by rw [h, hben] at hcb; exact Bool.noConfusion hcb
    rw [List.cons_append, List.cons_append]
    exact isPre_false_of_head_ne (a :: d) a (by simp) c _ hcne

theorem isPre_img_false_line (x y : Str) (img : ContentImage)
    (hx : ∀ c ∈ x, benignChar c = true) :
    isPre "<img".toList (x ++ imageHtmlOf img ++ y) = false := by
  cases x with
  | nil =>
    simp only [List.nil_append]
    have hassoc : imageHtmlOf img ++ y = sDivPre ++ (imageTagOf img ++ (captionOf img ++
        ("</div>".toList ++ y))) := by
      simp [imageHtmlOf, List.append_assoc]
    rw [hassoc]
    exact isPre_false_via ['<', 'i'] "<img".toList sDivPre _ (by decide) (by decide) (by decide)
  | cons c x' =>
    have hcb := hx c (List.mem_cons_self c x')
    have hcne : c ≠ '<' := fun h => by
      rw [h] at hcb
      exact absurd hcb (by decide)
    rw [List.cons_append, List.cons_append]
    exact isPre_false_of_head_ne "<img".toList '<' (by decide) c _ hcne

theorem drop_takeWhile_len (p : Char → Bool) : ∀ (l : Str),
    l.drop (l.takeWhile p).length = l.dropWhile p := by
  intro l
  induction l with
  | nil => rfl
  | cons c t ih =>
    by_cases h : p c
    · simp [List.takeWhile_cons, List.dropWhile_cons, h, ih]
    · simp [List.takeWhile_cons, List.dropWhile_cons, h]

theorem isOrdered_false_general (a R : Str)
    (ha : ∀ c ∈ a, benignChar c = true) :
    isOrdered (a ++ '<' :: R) = false := by
  unfold isOrdered ordPrefixLen
  rw [drop_takeWhile_len]
  have hB : isPre ". ".toList ((a ++ '<' :: R).dropWhile Char.isDigit) = false := by
    cases hda : a.dropWhile Char.isDigit with
    | nil =>
      rw [dw_app_nil Char.isDigit a _ hda, dropWhile_cons_false Char.isDigit '<' R (by decide)]
      exact isPre_false_of_head_ne ". ".toList '.' (by decide) '<' R (by decide)
    | cons d w =>
      rw [dw_app_cons Char.isDigit a _ (by rw [hda]; simp), hda, List.cons_append]
      have hdmem : d ∈ a := mem_dropWhile_sub Char.isDigit a d (by
        rw [hda]; exact List.mem_cons_self d w)
      have hdb := ha d hdmem
      have hdne : d ≠ '.' := fun h => by
        rw [h] at hdb
        exact absurd hdb (by decide)
      exact isPre_false_of_head_ne ". ".toList '.' (by decide) d _ hdne
  rw [hB, Bool.and_false]

theorem isOrdered_false_line (a y2 : Str) (img : ContentImage)
    (ha : ∀ c ∈ a, benignChar c = true) :
    isOrdered (a ++ imageHtmlOf img ++ y2) = false := by
  have hform : a ++ imageHtmlOf img ++ y2 =
      a ++ '<' :: (("div class=\"blog-image-container my-6 text-center\">".toList ++
        (imageTagOf img ++ (captionOf img ++ "</div>".toList))) ++ y2) := by
    rw [imageHtml_cons]
    simp [List.append_assoc]
  rw [hform]
  exact isOrdered_false_general a _ ha

theorem passThru_line (a y2 : Str) (img : ContentImage) :
    isPassThru (a ++ imageHtmlOf img ++ y2) = true := by
  have hdiv : containsSub "<div".toList (a ++ imageHtmlOf img ++ y2) = true := by
    rw [List.append_assoc]
    apply containsSub_append_right
    apply containsSub_of_isPre
    have hassoc : imageHtmlOf img ++ y2 = sDivPre ++ (imageTagOf img ++ (captionOf img ++
        ("</div>".toList ++ y2))) := by
      simp [imageHtmlOf, List.append_assoc]
    rw [hassoc]
    exact isPre_append_ext "<div".toList sDivPre (by decide) _
  unfold isPassThru passThruTags
  simp only [List.map, List.any_cons, Bool.or_eq_true]
  exact Or.inl hdiv

theorem isEmpty_false_of_ne (l : Str) (h : l ≠ []) : l.isEmpty = false := by
  cases l with
  | nil => exact absurd rfl h
  | cons c t => rfl

theorem isEmpty_false_line (a y2 : Str) (img : ContentImage) :
    (a ++ imageHtmlOf img ++ y2).isEmpty = false := by
  apply isEmpty_false_of_ne
  rw [imageHtml_cons]
  intro h
  cases a with
  | nil => simp at h
  | cons c t => simp at h

theorem imageHtml_rev_cons (img : ContentImage) :
    (imageHtmlOf img).reverse =
      '>' :: ("vid/<".toList ++ (sDivPre ++ imageTagOf img ++ captionOf img).reverse) := by
  unfold imageHtmlOf
  rw [List.reverse_append]
  rw [show ("</div>".toList : Str).reverse = '>' :: "vid/<".toList from by decide]
  rw [List.cons_append]

theorem trim_line (x y : Str) (img : ContentImage) :
    trimStr (x ++ imageHtmlOf img ++ y) = trimL x ++ imageHtmlOf img ++ trimR y :=
  trim_decomp x (imageHtmlOf img) y '<' '>' _ _ (imageHtml_cons img) (imageHtml_rev_cons img)
    (by decide) (by decide)

theorem convert_line (x y : Str) (img : ContentImage)
    (hx : ∀ c ∈ x, benignChar c = true) (hy : ∀ c ∈ y, benignChar c = true)
    (hurl : ∀ c ∈ img.url, benignChar c = true) (halt : ∀ c ∈ img.alt, benignChar c = true) :
    convertMarkdownToHtml (x ++ imageHtmlOf img ++ y) =
      trimL x ++ imageHtmlOf img ++ trimR y := by
  have hbrace : '\x7b' ∉ x ++ imageHtmlOf img ++ y :=
    char_notMem_line x y img '\x7b' hx hy hurl halt (by decide) (by decide) (by decide)
      (by decide) (by decide) (by decide) (by decide) (by decide) (by decide)
  have hhash : '#' ∉ x ++ imageHtmlOf img ++ y :=
    char_notMem_line x y img '#' hx hy hurl halt (by decide) (by decide) (by decide)
      (by decide) (by decide) (by decide) (by decide) (by decide) (by decide)
  have hstar : '*' ∉ x ++ imageHtmlOf img ++ y :=
    char_notMem_line x y img '*' hx hy hurl halt (by decide) (by decide) (by decide)
      (by decide) (by decide) (by decide) (by decide) (by decide) (by decide)
  have hlbr : '[' ∉ x ++ imageHtmlOf img ++ y :=
    char_notMem_line x y img '[' hx hy hurl halt (by decide) (by decide) (by decide)
      (by decide) (by decide) (by decide) (by decide) (by decide) (by decide)
  have htick : '`' ∉ x ++ imageHtmlOf img ++ y :=
    char_notMem_line x y img '`' hx hy hurl halt (by decide) (by decide) (by decide)
      (by decide) (by decide) (by decide) (by decide) (by decide) (by decide)
  have hnl : '\n' ∉ x ++ imageHtmlOf img ++ y :=
    char_notMem_line x y img '\n' hx hy hurl halt (by decide) (by decide) (by decide)
      (by decide) (by decide) (by decide) (by decide) (by decide) (by decide)
  have htx : ∀ c ∈ trimL x, benignChar c = true := fun c hc => hx c (mem_trimL_sub x c hc)
  have hty : ∀ c ∈ trimR y, benignChar c = true := fun c hc => hy c (mem_trimR_sub y c hc)
  have htrim := trim_line x y img
  have h0 : (trimStr (x ++ imageHtmlOf img ++ y)).isEmpty = false := by
    rw [htrim]
    exact isEmpty_false_line (trimL x) (trimR y) img
  have h1 : isUnordered (trimStr (x ++ imageHtmlOf img ++ y)) = false := by
    rw [htrim]
    have hu1 : isPre "- ".toList (trimL x ++ imageHtmlOf img ++ trimR y) = false :=
      isPre_false_line (trimL x) (trimR y) img '-' [' '] htx (by decide) (by decide)
    have hu2 : isPre "* ".toList (trimL x ++ imageHtmlOf img ++ trimR y) = false :=
      isPre_false_line (trimL x) (trimR y) img '*' [' '] htx (by decide) (by decide)
    unfold isUnordered
    rw [hu1, hu2]
    rfl
  have h2 : isOrdered (trimStr (x ++ imageHtmlOf img ++ y)) = false := by
    rw [htrim]
    exact isOrdered_false_line (trimL x) (trimR y) img htx
  have h3 : isPre "<img".toList (trimStr (x ++ imageHtmlOf img ++ y)) = false := by
    rw [htrim]
    exact isPre_img_false_line (trimL x) (trimR y) img htx
  have h4 : isPassThru (trimStr (x ++ imageHtmlOf img ++ y)) = true := by
    rw [htrim]
    exact passThru_line (trimL x) (trimR y) img
  have hbqf : ∀ l ∈ splitNL (x ++ imageHtmlOf img ++ y), isPre "> ".toList l = false := by
    intro l hl
    rw [splitNL_single _ hnl, List.mem_singleton] at hl
    subst hl
    exact isPre_false_line x y img '>' [' '] hx (by decide) (by decide)
  have hne : (x ++ imageHtmlOf img ++ y).isEmpty = false := isEmpty_false_line x y img
  unfold convertMarkdownToHtml
  rw [hne]
  simp only [Bool.false_eq_true, if_false]
  rw [colorPass_id _ hbrace]
  rw [h1Pass_id _ hhash, h2Pass_id _ hhash, h3Pass_id _ hhash, h4Pass_id _ hhash]
  rw [boldPass_id _ hstar, italicPass_id _ hstar]
  rw [linkPass_id _ hlbr]
  rw [codePass_id _ htick]
  rw [bqPass_id_of_heads _ hbqf]
  rw [codeBlockPass_id _ htick]
  rw [listMachine_single _ hnl h0 h1 h2 h3 h4]
  exact htrim

/-! ### The exact-match resolution step of `generateProcessedContent` -/

theorem mkAnchor_cons (a p : Str) :
    mkAnchor a p = '!' :: ('[' :: (a ++ "](image:".toList ++ p ++ [')'])) := by
  unfold mkAnchor
  rw [show ("![".toList : Str) = '!' :: '[' :: [] from by decide]
  simp [List.append_assoc]

theorem mkAnchor_head (a p : Str) : (mkAnchor a p).head? = some '!' := by
  rw [mkAnchor_cons]
  rfl

theorem mkAnchor_isEmpty (a p : Str) : (mkAnchor a p).isEmpty = false := by
  rw [mkAnchor_cons]
  rfl

theorem mkAnchor_rev (a p : Str) :
    (mkAnchor a p).reverse = ')' :: ("![".toList ++ a ++ "](image:".toList ++ p).reverse := by
  unfold mkAnchor
  rw [List.reverse_append]
  simp

theorem trimStr_stable (s : Str) (c d : Char) (s1 s2 : Str)
    (h1 : s = c :: s1) (h2 : s.reverse = d :: s2)
    (hc : isWsChar c = false) (hd : isWsChar d = false) : trimStr s = s := by
  unfold trimStr trimL trimR
  rw [h1, dropWhile_cons_false isWsChar c s1 hc, ← h1, h2,
    dropWhile_cons_false isWsChar d s2 hd, ← h2, List.reverse_reverse]

theorem trimStr_mkAnchor (a p : Str) : trimStr (mkAnchor a p) = mkAnchor a p :=
  trimStr_stable (mkAnchor a p) '!' ')' _ _ (mkAnchor_cons a p) (mkAnchor_rev a p)
    (by decide) (by decide)

theorem altOrDefault_eq (img : ContentImage) (h : img.alt ≠ []) :
    altOrDefault img = img.alt := by
  unfold altOrDefault
  rw [isEmpty_false_of_ne img.alt h]
  simp

theorem genStep1_exact (img : ContentImage) (x y : Str)
    (ha0 : img.alt ≠ []) (hp0 : img.public_id ≠ []) (hu0 : img.url ≠ [])
    (hxbang : '!' ∉ x) (hybang : '!' ∉ y) :
    genStep1 (x ++ mkAnchor img.alt img.public_id ++ y) [img] =
      x ++ imageHtmlOf img ++ y := by
  have hstep : genStep1 (x ++ mkAnchor img.alt img.public_id ++ y) [img] =
      processImage (x ++ mkAnchor img.alt img.public_id ++ y) 0 img := rfl
  rw [hstep]
  unfold processImage
  rw [if_pos (by
    simp [isEmpty_false_of_ne _ hp0, isEmpty_false_of_ne _ hu0] : (!img.public_id.isEmpty && !img.url.isEmpty) = true)]
  have hc1 : (!(mkAnchor img.alt img.public_id).isEmpty &&
      !(trimStr (mkAnchor img.alt img.public_id)).isEmpty &&
      containsSub (mkAnchor img.alt img.public_id)
        (x ++ mkAnchor img.alt img.public_id ++ y)) = true := by
    rw [mkAnchor_isEmpty, trimStr_mkAnchor, mkAnchor_isEmpty,
      containsSub_middle (mkAnchor img.alt img.public_id) x y]
    rfl
  have hfu : firstUsable (x ++ mkAnchor img.alt img.public_id ++ y)
      (placeholderFormats img) = some (mkAnchor img.alt img.public_id) := by
    unfold placeholderFormats
    rw [altOrDefault_eq img ha0]
    simp only [firstUsable]
    rw [if_pos hc1]
  rw [hfu]
  exact replaceAll_single x (mkAnchor img.alt img.public_id) y (imageHtmlOf img) '!'
    (mkAnchor_head img.alt img.public_id) hxbang hybang

/-- Claim C1 (counterexample): the claim "for every ContentImage whose stored
anchor occurs in the raw content, the output of `generateProcessedContent`
contains exactly one `<img>` whose src equals that image's url" is false when
the anchor occurs twice: the replacement is a global regex replace, so the
output contains two such `<img>` elements. -/
theorem claim_c1_counterexample :
    containsSub "![a](image:p)".toList c1CexContent = true ∧
    occCount (sImgPre ++ "u".toList ++ ['\"'])
      (generateProcessedContent c1CexContent [c1CexImage]) = 2 ∧
    ¬ occCount (sImgPre ++ "u".toList ++ ['\"'])
      (generateProcessedContent c1CexContent [c1CexImage]) = 1 := by
  decide

/-- Claim C1 (amended): the claim holds once "occurs" is strengthened to
"occurs exactly once".  For a document with a single `ContentImage` whose
stored anchor `![alt](image:public_id)` occurs exactly once in the raw
content (benign letter/digit/space text around a single anchor occurrence,
all image fields benign and non-empty), `generateProcessedContent` emits
exactly one `<img>` element, and exactly one `<img src="url"` occurrence for
that image's url. -/
theorem claim_c1_amended (x y alt pid url : Str)
    (hx : ∀ c ∈ x, benignChar c = true) (hy : ∀ c ∈ y, benignChar c = true)
    (ha : ∀ c ∈ alt, benignChar c = true) (hu : ∀ c ∈ url, benignChar c = true)
    (ha0 : alt ≠ []) (hp0 : pid ≠ []) (hu0 : url ≠ []) :
    occCount "<img".toList (generateProcessedContent (x ++ mkAnchor alt pid ++ y)
      [⟨url, pid, alt, some (mkAnchor alt pid), 0⟩]) = 1 ∧
    occCount (sImgPre ++ url ++ ['\"'])
      (generateProcessedContent (x ++ mkAnchor alt pid ++ y)
        [⟨url, pid, alt, some (mkAnchor alt pid), 0⟩]) = 1 := by
  have hxbang : '!' ∉ x := notMem_of_all benignChar x hx '!' (by decide)
  have hybang : '!' ∉ y := notMem_of_all benignChar y hy '!' (by decide)
  have htx : ∀ c ∈ trimL x, benignChar c = true := fun c hc => hx c (mem_trimL_sub x c hc)
  have hty : ∀ c ∈ trimR y, benignChar c = true := fun c hc => hy c (mem_trimR_sub y c hc)
  have hxlt : '<' ∉ trimL x := notMem_of_all benignChar (trimL x) htx '<' (by decide)
  have hylt : '<' ∉ trimR y := notMem_of_all benignChar (trimR y) hty '<' (by decide)
  have hult : '<' ∉ url := notMem_of_all benignChar url hu '<' (by decide)
  have halt2 : '<' ∉ alt := notMem_of_all benignChar alt ha '<' (by decide)
  have hproj : (⟨url, pid, alt, some (mkAnchor alt pid), 0⟩ : ContentImage).url = url := rfl
  have hres : genStep1 (x ++ mkAnchor alt pid ++ y)
      [(⟨url, pid, alt, some (mkAnchor alt pid), 0⟩ : ContentImage)] =
      x ++ imageHtmlOf ⟨url, pid, alt, some (mkAnchor alt pid), 0⟩ ++ y :=
    genStep1_exact ⟨url, pid, alt, some (mkAnchor alt pid), 0⟩ x y ha0 hp0 hu0 hxbang hybang
  have hconv : convertMarkdownToHtml
      (x ++ imageHtmlOf ⟨url, pid, alt, some (mkAnchor alt pid), 0⟩ ++ y) =
      trimL x ++ imageHtmlOf ⟨url, pid, alt, some (mkAnchor alt pid), 0⟩ ++ trimR y :=
    convert_line x y _ hx hy hu ha
  have hgen : generateProcessedContent (x ++ mkAnchor alt pid ++ y)
      [⟨url, pid, alt, some (mkAnchor alt pid), 0⟩] =
      trimL x ++ imageHtmlOf ⟨url, pid, alt, some (mkAnchor alt pid), 0⟩ ++ trimR y := by
    unfold generateProcessedContent
    rw [hres, hconv]
  rw [hgen]
  constructor
  · refine occ_imageHtml_line "<img".toList _ (trimL x) (trimR y) (by decide) (by decide)
      ?_ hxlt hylt hult halt2
    rw [hproj]
    rw [show ("<img".toList : Str) = '<' :: "img".toList from by decide]
    simp [isPre]
  · refine occ_imageHtml_line (sImgPre ++ url ++ ['\"']) _ (trimL x) (trimR y)
      ?_ ?_ ?_ hxlt hylt hult halt2
    · rw [sImgPre_cons, List.cons_append, List.cons_append]
      rfl
    · have h1 : isPre ['<', 'i'] sImgPre = true := by decide
      have h2 := isPre_append_ext ['<', 'i'] sImgPre h1 url
      exact isPre_append_ext ['<', 'i'] (sImgPre ++ url) h2 ['\"']
    · rw [hproj]
      rw [sImgPre_cons, List.cons_append, List.cons_append]
      simp only [isPre, beq_self_eq_true, Bool.true_and, List.append_eq, List.nil_append,
        List.append_assoc]
      rw [isPre_cancel]
      rw [show (sImgMid : Str) = '\"' :: " alt=\"".toList from by decide, List.cons_append]
      simp [isPre]

/-- Claim C1, witness: the amended theorem applied at a concrete document. -/
theorem claim_c1_witness :
    occCount "<img".toList (generateProcessedContent
      ("Hello ".toList ++ mkAnchor "pic".toList "abc12".toList ++ " world".toList)
      [⟨"httpimg".toList, "abc12".toList, "pic".toList,
        some (mkAnchor "pic".toList "abc12".toList), 0⟩]) = 1 ∧
    occCount (sImgPre ++ "httpimg".toList ++ ['\"'])
      (generateProcessedContent
        ("Hello ".toList ++ mkAnchor "pic".toList "abc12".toList ++ " world".toList)
        [⟨"httpimg".toList, "abc12".toList, "pic".toList,
          some (mkAnchor "pic".toList "abc12".toList), 0⟩]) = 1 :=
  claim_c1_amended "Hello ".toList " world".toList "pic".toList "abc12".toList "httpimg".toList
    (by decide) (by decide) (by decide) (by decide) (by decide) (by decide) (by decide)

/-! ### The positional-fallback resolution step -/

theorem genStep1_fallback (alt pid url : Str)
    (ha0 : alt ≠ []) (hp0 : pid ≠ []) (hu0 : url ≠ [])
    (hf1 : containsSub (mkAnchor alt pid) "Intro ![wrong](image:tmp123) outro".toList = false)
    (hf3 : containsSub (mkAnchor sBlogImage pid) "Intro ![wrong](image:tmp123) outro".toList = false)
    (hf5 : containsSub ("![](".toList ++ pid ++ [')']) "Intro ![wrong](image:tmp123) outro".toList = false) :
    genStep1 "Intro ![wrong](image:tmp123) outro".toList
        [⟨url, pid, alt, some (mkAnchor alt pid), 0⟩] =
      "Intro ".toList ++ imageHtmlOf ⟨url, pid, alt, some (mkAnchor alt pid), 0⟩ ++
        " outro".toList := by
  have hstep : genStep1 "Intro ![wrong](image:tmp123) outro".toList
      [(⟨url, pid, alt, some (mkAnchor alt pid), 0⟩ : ContentImage)] =
      processImage "Intro ![wrong](image:tmp123) outro".toList 0
        ⟨url, pid, alt, some (mkAnchor alt pid), 0⟩ := rfl
  rw [hstep]
  unfold processImage
  rw [if_pos (by
    simp [isEmpty_false_of_ne _ hp0, isEmpty_false_of_ne _ hu0] :
      (!(⟨url, pid, alt, some (mkAnchor alt pid), 0⟩ : ContentImage).public_id.isEmpty &&
        !(⟨url, pid, alt, some (mkAnchor alt pid), 0⟩ : ContentImage).url.isEmpty) = true)]
  have hc1 : (!(mkAnchor alt pid).isEmpty && !(trimStr (mkAnchor alt pid)).isEmpty &&
      containsSub (mkAnchor alt pid) "Intro ![wrong](image:tmp123) outro".toList) = false := by
    rw [hf1, Bool.and_false]
  have hc3 : (!(mkAnchor sBlogImage pid).isEmpty &&
      !(trimStr (mkAnchor sBlogImage pid)).isEmpty &&
      containsSub (mkAnchor sBlogImage pid) "Intro ![wrong](image:tmp123) outro".toList) = false := by
    rw [hf3, Bool.and_false]
  have hc5 : (!("![](".toList ++ pid ++ [')']).isEmpty &&
      !(trimStr ("![](".toList ++ pid ++ [')'])).isEmpty &&
      containsSub ("![](".toList ++ pid ++ [')'])
        "Intro ![wrong](image:tmp123) outro".toList) = false := by
    rw [hf5, Bool.and_false]
  have hfu : firstUsable "Intro ![wrong](image:tmp123) outro".toList
      (placeholderFormats ⟨url, pid, alt, some (mkAnchor alt pid), 0⟩) = none := by
    unfold placeholderFormats
    rw [altOrDefault_eq ⟨url, pid, alt, some (mkAnchor alt pid), 0⟩ ha0]
    simp only [firstUsable, hc1, hc3, hc5, Bool.false_eq_true, if_false]
  rw [hfu]
  have hmatch : matchAllAnchors "Intro ![wrong](image:tmp123) outro".toList =
      ["![wrong](image:tmp123)".toList] := by decide
  rw [hmatch]
  rw [if_pos (by decide : (0 : Nat) < (["![wrong](image:tmp123)".toList] : List Str).length)]
  have hgd : (["![wrong](image:tmp123)".toList] : List Str).getD 0 [] =
      "![wrong](image:tmp123)".toList := by decide
  rw [hgd]
  have hcontent : ("Intro ![wrong](image:tmp123) outro".toList : Str) =
      "Intro ".toList ++ "![wrong](image:tmp123)".toList ++ " outro".toList := by decide
  rw [hcontent]
  exact replaceAll_single "Intro ".toList "![wrong](image:tmp123)".toList " outro".toList
    (imageHtmlOf ⟨url, pid, alt, some (mkAnchor alt pid), 0⟩) '!' (by decide) (by decide)
    (by decide)

/-- Claim C4 (counterexample): the claim says the positional fallback
"replaces that substring with the correct permanent anchor".  In the code the
fallback replaces the anchor-shaped substring with the rendered image HTML:
the resolved content contains zero occurrences of the permanent anchor
`![a](image:p1)` (and the mismatched anchor is gone, replaced by one `<img>`
element). -/
theorem claim_c4_counterexample :
    occCount "![a](image:p1)".toList (genStep1 c4CexContent [c4CexImage]) = 0 ∧
    occCount "![wrong](image:tmp)".toList (genStep1 c4CexContent [c4CexImage]) = 0 ∧
    occCount "<img".toList (genStep1 c4CexContent [c4CexImage]) = 1 := by
  decide

/-- Claim C4 (amended): for a single image descriptor whose exact anchor (in
any of the formats the code tries) does not occur in the content, and content
containing exactly one image-anchor-shaped substring `![wrong](image:tmp123)`
with mismatched alt text, resolution replaces that substring — at the tuple's
index among all anchor-shaped substrings — with the rendered image HTML block
(whose `<img>` src is that image's url), not with the permanent anchor, which
does not occur in the result. -/
theorem claim_c4_amended (alt pid url : Str)
    (ha : ∀ c ∈ alt, benignChar c = true) (hu : ∀ c ∈ url, benignChar c = true)
    (ha0 : alt ≠ []) (hp0 : pid ≠ []) (hu0 : url ≠ [])
    (hf1 : containsSub (mkAnchor alt pid) "Intro ![wrong](image:tmp123) outro".toList = false)
    (hf3 : containsSub (mkAnchor sBlogImage pid) "Intro ![wrong](image:tmp123) outro".toList = false)
    (hf5 : containsSub ("![](".toList ++ pid ++ [')'])
      "Intro ![wrong](image:tmp123) outro".toList = false) :
    genStep1 "Intro ![wrong](image:tmp123) outro".toList
        [⟨url, pid, alt, some (mkAnchor alt pid), 0⟩] =
      "Intro ".toList ++ imageHtmlOf ⟨url, pid, alt, some (mkAnchor alt pid), 0⟩ ++
        " outro".toList ∧
    occCount (mkAnchor alt pid) (genStep1 "Intro ![wrong](image:tmp123) outro".toList
      [⟨url, pid, alt, some (mkAnchor alt pid), 0⟩]) = 0 ∧
    occCount "<img".toList (genStep1 "Intro ![wrong](image:tmp123) outro".toList
      [⟨url, pid, alt, some (mkAnchor alt pid), 0⟩]) = 1 := by
  have hres := genStep1_fallback alt pid url ha0 hp0 hu0 hf1 hf3 hf5
  refine ⟨hres, ?_, ?_⟩
  · rw [hres]
    apply occ_zero_of_head_notMem (mkAnchor alt pid) '!' (mkAnchor_head alt pid)
    intro hmem
    rcases List.mem_append.mp hmem with h9 | h9
    · rcases List.mem_append.mp h9 with h10 | h10
      · revert h10; decide
      · exact char_notMem_imageHtml ⟨url, pid, alt, some (mkAnchor alt pid), 0⟩ '!'
          (notMem_of_all benignChar url hu '!' (by decide))
          (notMem_of_all benignChar alt ha '!' (by decide))
          (by decide) (by decide) (by decide) (by decide) (by decide) (by decide) (by decide)
          (by decide) h10
    · revert h9; decide
  · rw [hres]
    refine occ_imageHtml_line "<img".toList _ "Intro ".toList " outro".toList (by decide)
      (by decide) ?_ (by decide) (by decide)
      (notMem_of_all benignChar url hu '<' (by decide))
      (notMem_of_all benignChar alt ha '<' (by decide))
    rw [show ("<img".toList : Str) = '<' :: "img".toList from by decide]
    simp [isPre]

/-- Claim C4, witness: the amended theorem at a concrete image descriptor. -/
theorem claim_c4_witness :
    genStep1 "Intro ![wrong](image:tmp123) outro".toList
        [⟨"httpimg".toList, "p77".toList, "cat".toList,
          some (mkAnchor "cat".toList "p77".toList), 0⟩] =
      "Intro ".toList ++ imageHtmlOf ⟨"httpimg".toList, "p77".toList, "cat".toList,
        some (mkAnchor "cat".toList "p77".toList), 0⟩ ++ " outro".toList ∧
    occCount (mkAnchor "cat".toList "p77".toList)
      (genStep1 "Intro ![wrong](image:tmp123) outro".toList
        [⟨"httpimg".toList, "p77".toList, "cat".toList,
          some (mkAnchor "cat".toList "p77".toList), 0⟩]) = 0 ∧
    occCount "<img".toList
      (genStep1 "Intro ![wrong](image:tmp123) outro".toList
        [⟨"httpimg".toList, "p77".toList, "cat".toList,
          some (mkAnchor "cat".toList "p77".toList), 0⟩]) = 1 :=
  claim_c4_amended "cat".toList "p77".toList "httpimg".toList (by decide) (by decide)
    (by decide) (by decide) (by decide) (by decide) (by decide) (by decide)

/-! ### The exact-match path of the POST-route resolver -/

theorem mkAnchor_rev_cons (a p : Str) :
    (mkAnchor a p).reverse = ')' :: ("![".toList ++ a ++ "](image:".toList ++ p).reverse :=
  mkAnchor_rev a p

theorem trim_anchor_line (x y a p : Str) :
    trimStr (x ++ mkAnchor a p ++ y) = trimL x ++ mkAnchor a p ++ trimR y :=
  trim_decomp x (mkAnchor a p) y '!' ')' _ _ (mkAnchor_cons a p) (mkAnchor_rev_cons a p)
    (by decide) (by decide)

theorem plainChar_notBang (l : Str) (h : ∀ c ∈ l, (c.isAlpha || c.isDigit) = true) :
    '!' ∉ l :=
  notMem_of_all (fun c => c.isAlpha || c.isDigit) l h '!' (by decide)

theorem isPre_anchor_ne : ∀ (tid pub r : Str),
    (∀ c ∈ tid, (c.isAlpha || c.isDigit) = true) →
    (∀ c ∈ pub, (c.isAlpha || c.isDigit) = true) →
    tid ≠ pub →
    isPre (tid ++ [')']) (pub ++ ')' :: r) = false := by
  intro tid
  induction tid with
  | nil =>
    intro pub r _ hpub hne
    cases pub with
    | nil => exact absurd rfl hne
    | cons q pub' =>
      have hq := hpub q (List.mem_cons_self q pub')
      have hqne : q ≠ ')' := fun h => by
        rw [h] at hq
        exact absurd hq (by decide)
      rw [List.nil_append, List.cons_append]
      exact isPre_false_of_head_ne [')'] ')' (by decide) q _ hqne
  | cons c tid' ih =>
    intro pub r htid hpub hne
    cases pub with
    | nil =>
      have hc := htid c (List.mem_cons_self c tid')
      have hcne : ')' ≠ c := fun h => by
        rw [← h] at hc
        exact absurd hc (by decide)
      rw [List.cons_append, List.nil_append]
      exact isPre_false_of_head_ne (c :: (tid' ++ [')'])) c (by simp) ')' r hcne
    | cons q pub' =>
      by_cases hcq : c = q
      · subst hcq
        have hne2 : tid' ≠ pub' := fun h => hne (by rw [h])
        have ih2 := ih pub' r (fun d hd => htid d (List.mem_cons_of_mem c hd))
          (fun d hd => hpub d (List.mem_cons_of_mem c hd)) hne2
        simp only [List.cons_append, isPre, beq_self_eq_true, Bool.true_and]
        exact ih2
      · simp only [List.cons_append, isPre]
        simp [hcq]

theorem isPre_temp_perm_false (alt tid pub yt : Str)
    (htid : ∀ c ∈ tid, (c.isAlpha || c.isDigit) = true)
    (hpub : ∀ c ∈ pub, (c.isAlpha || c.isDigit) = true)
    (hne : tid ≠ pub) :
    isPre (mkAnchor alt tid) (mkAnchor alt pub ++ yt) = false := by
  unfold mkAnchor
  simp only [List.append_assoc, List.singleton_append]
  rw [isPre_cancel, isPre_cancel, isPre_cancel]
  exact isPre_anchor_ne tid pub yt htid hpub hne

theorem anchor_tail_noBang (alt pub : Str) (ha : '!' ∉ alt) (hpub : '!' ∉ pub) :
    '!' ∉ ('[' :: (alt ++ "](image:".toList ++ pub ++ [')'])) := by
  intro hmem
  rcases List.mem_cons.mp hmem with h | h
  · exact absurd h (by decide)
  · rcases List.mem_append.mp h with h | h
    · rcases List.mem_append.mp h with h | h
      · rcases List.mem_append.mp h with h | h
        · exact ha h
        · revert h; decide
      · exact hpub h
    · revert h; decide

theorem occ_temp_zero (xt yt alt tid pub : Str)
    (hxt : '!' ∉ xt) (hyt : '!' ∉ yt) (ha : '!' ∉ alt) (hpubb : '!' ∉ pub)
    (htid : ∀ c ∈ tid, (c.isAlpha || c.isDigit) = true)
    (hpub : ∀ c ∈ pub, (c.isAlpha || c.isDigit) = true)
    (hne : tid ≠ pub) :
    occCount (mkAnchor alt tid) (xt ++ mkAnchor alt pub ++ yt) = 0 := by
  rw [List.append_assoc]
  rw [occ_append_left_skip (mkAnchor alt tid) '!' (mkAnchor_head alt tid) xt _ hxt]
  have hfalse : isPre (mkAnchor alt tid) (mkAnchor alt pub ++ yt) = false :=
    isPre_temp_perm_false alt tid pub yt htid hpub hne
  rw [mkAnchor_cons alt pub] at hfalse ⊢
  rw [List.cons_append] at hfalse
  rw [occ_skip_piece (mkAnchor alt tid) '!'
    ('[' :: (alt ++ "](image:".toList ++ pub ++ [')'])) yt (mkAnchor_head alt tid)
    (anchor_tail_noBang alt pub ha hpubb) hfalse]
  exact occ_zero_of_head_notMem (mkAnchor alt tid) '!' (mkAnchor_head alt tid) yt hyt

theorem occ_perm_one (xt yt alt pub : Str)
    (hxt : '!' ∉ xt) (hyt : '!' ∉ yt) (ha : '!' ∉ alt) (hpubb : '!' ∉ pub) :
    occCount (mkAnchor alt pub) (xt ++ mkAnchor alt pub ++ yt) = 1 := by
  rw [List.append_assoc]
  rw [occ_append_left_skip (mkAnchor alt pub) '!' (mkAnchor_head alt pub) xt _ hxt]
  have hmatch : isPre (mkAnchor alt pub) (mkAnchor alt pub ++ yt) = true :=
    isPre_self_append _ _
  rw [mkAnchor_cons alt pub] at hmatch ⊢
  rw [List.cons_append] at hmatch ⊢
  rw [occ_cons_match _ '!' _ hmatch]
  rw [occ_append_left_skip _ '!' (by rw [← mkAnchor_cons alt pub]; exact mkAnchor_head alt pub)
    ('[' :: (alt ++ "](image:".toList ++ pub ++ [')'])) yt
    (anchor_tail_noBang alt pub ha hpubb)]
  rw [occ_zero_of_head_notMem _ '!'
    (by rw [← mkAnchor_cons alt pub]; exact mkAnchor_head alt pub) yt hyt]

theorem postAltText_single (alt : Str) (h : alt ≠ []) : postAltText [some alt] 0 = alt := by
  unfold postAltText
  rw [show ([some alt] : List (Option Str)).getD 0 none = some alt from rfl]
  show (if List.isEmpty alt = true then sBlogImage else alt) = alt
  rw [isEmpty_false_of_ne alt h]
  simp

theorem postResolve_single_content (x y alt tid pub urlp : Str)
    (ha0 : alt ≠ []) (ht0 : tid ≠ []) :
    (postResolve (x ++ mkAnchor alt tid ++ y) [⟨pub, urlp⟩] [some tid] [some alt]).1 =
      replaceAll (trimL x ++ mkAnchor alt tid ++ trimR y) (mkAnchor alt tid)
        (mkAnchor alt pub) := by
  have hce : (trimL x ++ mkAnchor alt tid ++ trimR y).isEmpty = false := by
    apply isEmpty_false_of_ne
    intro hEq
    have hlen := congrArg List.length hEq
    rw [mkAnchor_cons] at hlen
    simp [List.length_append] at hlen
  unfold postResolve
  rw [trim_anchor_line x y alt tid]
  simp only [postResolveAux, postProcessFile]
  rw [show ([some tid] : List (Option Str)).getD 0 none = some tid from rfl]
  rw [postAltText_single alt ha0]
  show (if (!List.isEmpty tid && !List.isEmpty (trimL x ++ mkAnchor alt tid ++ trimR y)) = true
      then replaceAll (trimL x ++ mkAnchor alt tid ++ trimR y) (mkAnchor alt tid)
        (mkAnchor alt pub)
      else trimL x ++ mkAnchor alt tid ++ trimR y) =
    replaceAll (trimL x ++ mkAnchor alt tid ++ trimR y) (mkAnchor alt tid) (mkAnchor alt pub)
  rw [isEmpty_false_of_ne tid ht0, hce]
  simp

/-- Claim C3 (counterexample): the claim says the resolved content contains
"exactly one occurrence of the permanent anchor".  The POST-route replacement
is global: when the temporary anchor `![pic](image:tmp1)` occurs twice, the
resolved content contains two occurrences of the permanent anchor
`![pic](image:perm9)` (and zero of the temporary one). -/
theorem claim_c3_counterexample :
    occCount (mkAnchor "pic".toList "tmp1".toList)
      (postResolve c3CexContent [c3CexFile] [some "tmp1".toList] [some "pic".toList]).1 = 0 ∧
    occCount (mkAnchor "pic".toList "perm9".toList)
      (postResolve c3CexContent [c3CexFile] [some "tmp1".toList] [some "pic".toList]).1 = 2 ∧
    ¬ occCount (mkAnchor "pic".toList "perm9".toList)
      (postResolve c3CexContent [c3CexFile] [some "tmp1".toList] [some "pic".toList]).1 = 1 := by
  decide

/-- Claim C3 (amended): for an image tuple resolved by exact match whose
temporary anchor occurs exactly once in the content (benign text around a
single occurrence, alphanumeric ids, distinct temporary and permanent ids),
the resolved content contains zero occurrences of the temporary anchor
`![altText](image:temporaryId)` and exactly one occurrence of the permanent
anchor `![altText](image:assetId)`.  The original "exactly one" is false for
contents with several occurrences (see `claim_c3_counterexample`): the
replacement is global, producing one permanent anchor per occurrence. -/
theorem claim_c3_amended (x y alt tid pub urlp : Str)
    (hx : ∀ c ∈ x, benignChar c = true) (hy : ∀ c ∈ y, benignChar c = true)
    (ha : ∀ c ∈ alt, benignChar c = true)
    (htid : ∀ c ∈ tid, (c.isAlpha || c.isDigit) = true)
    (hpub : ∀ c ∈ pub, (c.isAlpha || c.isDigit) = true)
    (ha0 : alt ≠ []) (ht0 : tid ≠ []) (hne : tid ≠ pub) :
    (postResolve (x ++ mkAnchor alt tid ++ y) [⟨pub, urlp⟩] [some tid] [some alt]).1 =
      trimL x ++ mkAnchor alt pub ++ trimR y ∧
    occCount (mkAnchor alt tid)
      (postResolve (x ++ mkAnchor alt tid ++ y) [⟨pub, urlp⟩] [some tid] [some alt]).1 = 0 ∧
    occCount (mkAnchor alt pub)
      (postResolve (x ++ mkAnchor alt tid ++ y) [⟨pub, urlp⟩] [some tid] [some alt]).1 = 1 := by
  have hxb : '!' ∉ trimL x := fun h =>
    absurd (hx '!' (mem_trimL_sub x '!' h)) (by decide)
  have hyb : '!' ∉ trimR y := fun h =>
    absurd (hy '!' (mem_trimR_sub y '!' h)) (by decide)
  have hab : '!' ∉ alt := notMem_of_all benignChar alt ha '!' (by decide)
  have hpb : '!' ∉ pub := plainChar_notBang pub hpub
  have hres : (postResolve (x ++ mkAnchor alt tid ++ y) [⟨pub, urlp⟩]
      [some tid] [some alt]).1 = trimL x ++ mkAnchor alt pub ++ trimR y := by
    rw [postResolve_single_content x y alt tid pub urlp ha0 ht0]
    exact replaceAll_single (trimL x) (mkAnchor alt tid) (trimR y) (mkAnchor alt pub) '!'
      (mkAnchor_head alt tid) hxb hyb
  refine ⟨hres, ?_, ?_⟩
  · rw [hres]
    exact occ_temp_zero (trimL x) (trimR y) alt tid pub hxb hyb hab hpb htid hpub hne
  · rw [hres]
    exact occ_perm_one (trimL x) (trimR y) alt pub hxb hyb hab hpb

/-- Claim C3, witness: the amended theorem at a concrete upload. -/
theorem claim_c3_witness :
    (postResolve ("see ".toList ++ mkAnchor "pic".toList "tmp1".toList ++ " here".toList)
      [⟨"perm9".toList, "https".toList⟩] [some "tmp1".toList] [some "pic".toList]).1 =
      trimL "see ".toList ++ mkAnchor "pic".toList "perm9".toList ++ trimR " here".toList ∧
    occCount (mkAnchor "pic".toList "tmp1".toList)
      (postResolve ("see ".toList ++ mkAnchor "pic".toList "tmp1".toList ++ " here".toList)
        [⟨"perm9".toList, "https".toList⟩] [some "tmp1".toList] [some "pic".toList]).1 = 0 ∧
    occCount (mkAnchor "pic".toList "perm9".toList)
      (postResolve ("see ".toList ++ mkAnchor "pic".toList "tmp1".toList ++ " here".toList)
        [⟨"perm9".toList, "https".toList⟩] [some "tmp1".toList] [some "pic".toList]).1 = 1 :=
  claim_c3_amended "see ".toList " here".toList "pic".toList "tmp1".toList "perm9".toList
    "https".toList (by decide) (by decide) (by decide) (by decide) (by decide) (by decide)
    (by decide) (by decide)

/-! ### Claims C5, C6, C2, C7, C8, C9, C10 -/

/-- Claim C5 (counterexample): the claim says the read-path recomputation is
transient and the stored `processedContent` is unchanged by a read.  In the
code, `router.get('/:slug')` reassigns `blog.processedContent` and then
calls `await blog.save()`, so the recomputed value is persisted: on a
document whose stored `processedContent` is stale, the read changes it. -/
theorem claim_c5_counterexample :
    (getBlogBySlug c5CexBlog).processedContent ≠ c5CexBlog.processedContent ∧
    (getBlogBySlug c5CexBlog).processedContent =
      generateProcessedContent c5CexBlog.content c5CexBlog.contentImages := by
  decide

/-- Claim C5 (amended): serving a read recomputes `processedContent` from the
current converter and PERSISTS it (the saved document carries the recomputed
value), increments `views` by one, and leaves `content`, `contentImages`
and `readTime` unchanged. -/
theorem claim_c5_amended (b : BlogDoc) :
    (getBlogBySlug b).processedContent =
      generateProcessedContent b.content b.contentImages ∧
    (getBlogBySlug b).views = b.views + 1 ∧
    (getBlogBySlug b).content = b.content ∧
    (getBlogBySlug b).contentImages = b.contentImages ∧
    (getBlogBySlug b).readTime = b.readTime := by
  unfold getBlogBySlug saveBlog preSaveHook
  simp

/-- Claim C6: on any save with modified content, the stored `readTime` is
exactly the ceiling of `wordCount content / wordsPerMinute`: it is the least
number of minutes covering the word count at `wordsPerMinute` words per
minute; in particular a 400-word content yields `readTime = 2`. -/
theorem claim_c6_readtime (b : BlogDoc) (mi : Bool) :
    wordCount b.content ≤ (saveBlog b true mi).readTime * wordsPerMinute ∧
    (∀ m : Nat, wordCount b.content ≤ m * wordsPerMinute →
      (saveBlog b true mi).readTime ≤ m) ∧
    (wordCount b.content = 400 → (saveBlog b true mi).readTime = 2) := by
  have hr : (saveBlog b true mi).readTime = (wordCount b.content + 199) / 200 := by
    unfold saveBlog preSaveHook calcReadTime wordsPerMinute
    simp
  have hw : wordsPerMinute = 200 := rfl
  rw [hr, hw]
  have hd := Nat.div_add_mod (wordCount b.content + 199) 200
  have hm : (wordCount b.content + 199) % 200 < 200 := Nat.mod_lt _ (by omega)
  refine ⟨by omega, fun m hle => by omega, fun h400 => ?_⟩
  rw [h400]

/-- Claim C6, witness: the read-time theorem applied at a concrete 400-word
document. -/
theorem claim_c6_witness :
    wordCount w400content = 400 ∧
    (saveBlog ⟨w400content, [], [], 0, 0⟩ true false).readTime = 2 :=
  ⟨by decide, (claim_c6_readtime ⟨w400content, [], [], 0, 0⟩ false).2.2 (by decide)⟩

/-- Claim C2: the conversion pipeline is deterministic.  In the embedding
both `generateProcessedContent` and `convertMarkdownToHtml` are pure
functions of their arguments (the source functions read no state other than
their inputs), so two invocations on the same input are identical. -/
theorem claim_c2_determinism :
    (∀ (c : Str) (i : List ContentImage),
        generateProcessedContent c i = generateProcessedContent c i) ∧
    (∀ s : Str, convertMarkdownToHtml s = convertMarkdownToHtml s) :=
  ⟨fun _ _ => rfl, fun _ => rfl⟩

/-- Claim C7: the converter is total — for every input string it returns a
string (the embedding is a total function, so this is witnessed by
reflexivity) — and on the malformed inputs `*abc` and (backquote)abc the
unmatched delimiter is left as literal text inside a paragraph element. -/
theorem claim_c7_total :
    (∀ s : Str, ∃ out : Str, convertMarkdownToHtml s = out) ∧
    convertMarkdownToHtml "*abc".toList =
      "<p class=\"my-4 leading-relaxed text-gray-700\">*abc</p>".toList ∧
    convertMarkdownToHtml "`abc".toList =
      "<p class=\"my-4 leading-relaxed text-gray-700\">`abc</p>".toList :=
  ⟨fun s => ⟨convertMarkdownToHtml s, rfl⟩, by decide, by decide⟩

/-- Claim C8: on input `- a\n- b\n\n1. x\n2. y` the output is exactly an
unordered-list block followed (after one newline) by an ordered-list block;
the first holds one `<ul>` opener, one `</ul>` closer, two `<li>` items and
no `<ol>`; the second holds one `<ol>`, one `</ol>`, two `<li>` and no
`<ul>` — so the lists are non-overlapping and both closed. -/
theorem claim_c8_lists :
    convertMarkdownToHtml "- a\n- b\n\n1. x\n2. y".toList =
      c8UlPart ++ '\n' :: c8OlPart ∧
    occCount "<ul".toList c8UlPart = 1 ∧ occCount "</ul>".toList c8UlPart = 1 ∧
    occCount "<li".toList c8UlPart = 2 ∧ occCount "<ol".toList c8UlPart = 0 ∧
    occCount "<ol".toList c8OlPart = 1 ∧ occCount "</ol>".toList c8OlPart = 1 ∧
    occCount "<li".toList c8OlPart = 2 ∧ occCount "<ul".toList c8OlPart = 0 := by
  decide

/-- Claim C9: an `<img src="x"` fragment on one line with its `alt="y">`
closing fragment on the next line is merged, joined by a single space, into
one well-formed single-line tag; no paragraph wrapper and no newline appear
in the output. -/
theorem claim_c9_merge :
    convertMarkdownToHtml "<img src=\"x\"\nalt=\"y\">".toList =
      "<img src=\"x\" alt=\"y\">".toList ∧
    occCount "<p".toList
      (convertMarkdownToHtml "<img src=\"x\"\nalt=\"y\">".toList) = 0 ∧
    occCount ['\n']
      (convertMarkdownToHtml "<img src=\"x\"\nalt=\"y\">".toList) = 0 := by
  decide

/-- Claim C10: with an empty image list, `generateProcessedContent` reduces
to the plain converter — the resolution step leaves the content untouched
and only `convertMarkdownToHtml` acts. -/
theorem claim_c10_reduction :
    ∀ content : Str,
      generateProcessedContent content [] = convertMarkdownToHtml content :=
  fun _ => rfl
